import Mathlib

set_option maxRecDepth 100000
set_option maxHeartbeats 1000000

/-!
# Verification of the `fsdedupe` content-addressable store

This development shallowly embeds the Go package `fsdedupe` (files
`fs.go`, `fsdedupe.go` and their historical revisions) in Lean 4 and
proves/refutes the specified properties of its operations.

The embedding has four layers:

* a path layer modelling `path/filepath` (`Clean`, `Join`, `Dir`) for
  Unix separator `/`, with paths represented as rootedness plus a list
  of components (a cleaned Go path is exactly determined by these two);
* an executable SHA-512 (FIPS 180-4), modelling Go's `crypto/sha512`,
  validated below against the digest constant recorded in `fs_test.go`;
* a filesystem-state layer: a directory tree as an association list
  from absolute paths to nodes (regular file, symlink, directory), with
  the `os` operations used by the package (`MkdirAll`, `Create`,
  `Rename`, `Remove`, `RemoveAll`, `Symlink`, `Open`, `Readdirnames`)
  given their POSIX/Go semantics;
* the package's own functions (`FS.Create`/`Open`/`Rename`/`Remove`/`GC`,
  `createFile`, `fileWriter.Close`, `cleanTree`, `isDirEmpty`, the
  replacement step of `DedupeDirSymlink`, and the loop of
  `DedupeSymlink`) translated statement by statement.

Machine integers are `Nat` with explicit reduction modulo `2^64` where
the Go code uses `uint64` arithmetic; fallible operations return
`Except`.
-/

/-! ## Path layer: `path/filepath` for the Unix separator

Go's `filepath.Clean` output is fully described by whether the path is
rooted plus its list of path elements (no `""`/`"."` elements; `".."`
only as an unrooted prefix).  We model cleaned paths by that pair and
`Clean` by its element-stack algorithm. -/

/-- Split a character list at every `'/'` (the separator-scanning
loop of `path/filepath`; `cur` holds the current element reversed). -/
def splitSlash : List Char → List Char → List String
  | [], cur => [String.mk cur.reverse]
  | c :: rest, cur =>
    if c = '/' then String.mk cur.reverse :: splitSlash rest []
    else splitSlash rest (c :: cur)

/-- The raw slash-separated elements of a path string, empty elements
dropped (what `filepath.Clean`'s scanner iterates over). -/
def rawComps (s : String) : List String :=
  (splitSlash s.data []).filter (fun c => decide (c ≠ ""))

/-- Whether the path string is rooted (starts with the separator). -/
def isRooted (s : String) : Bool :=
  match s.data with
  | [] => false
  | c :: _ => c = '/'

/-- One step of `filepath.Clean`'s element processing.  The
accumulator `stack` is kept reversed (head = most recently emitted
element).  `".."` pops a previously emitted real element; at the top it
is dropped when rooted and emitted when not. -/
def cleanStep (rooted : Bool) (stack : List String) (c : String) : List String :=
  if c = "" ∨ c = "." then stack
  else if c = ".." then
    match stack with
    | [] => if rooted then [] else [".."]
    | top :: rest => if top = ".." then c :: top :: rest else rest
  else c :: stack

/-- The element list of `filepath.Clean` applied to a path whose raw
elements are `cs`. -/
def cleanComps (rooted : Bool) (cs : List String) : List String :=
  (cs.foldl (cleanStep rooted) []).reverse

/-- A cleaned Go path: rootedness plus clean element list.  Equality of
`GoPath`s is equality of the corresponding cleaned path strings
(`⟨false, []⟩` is `"."`, `⟨true, []⟩` is `"/"`). -/
structure GoPath where
  rooted : Bool
  comps : List String
deriving DecidableEq, Repr

/-- `filepath.Clean` of a raw path string, as a `GoPath`. -/
def parsePath (s : String) : GoPath :=
  ⟨isRooted s, cleanComps (isRooted s) (rawComps s)⟩

/-- `filepath.Join(a, b)` where the second argument is an
already-analysed path with rootedness `br` and elements `b`:
`Join` concatenates the non-empty arguments with `/` and `Clean`s the
result, so for non-empty `a` the result is rooted iff `a` is and its
elements are the cleaning of `a`'s raw elements followed by `b`;
`Join("", b)` is `Clean(b)`. -/
def goJoin (a : String) (br : Bool) (b : List String) : GoPath :=
  if a = "" then ⟨br, cleanComps br b⟩
  else ⟨isRooted a, cleanComps (isRooted a) (rawComps a ++ b)⟩

/-- `filepath.Dir` on a cleaned path: drop the last element
(`Dir("/a/b") = "/a"`, `Dir("/a") = "/"`, `Dir("a") = "."`). -/
def dirOf (p : GoPath) : GoPath :=
  ⟨p.rooted, p.comps.dropLast⟩

/-- `p` lies lexically at-or-under `q` (same root, `q`'s components are
a prefix of `p`'s). -/
def under (q p : GoPath) : Prop :=
  q.rooted = p.rooted ∧ q.comps <+: p.comps

instance (q p : GoPath) : Decidable (under q p) := by
  unfold under; infer_instance

/-- Boolean form of `under`, used inside executable operations. -/
def underB (q p : GoPath) : Bool :=
  decide (under q p)

/-- A normal path element: not empty, not `"."`, not `".."`. -/
def normalComp (c : String) : Prop :=
  c ≠ "" ∧ c ≠ "." ∧ c ≠ ".."

/-! ## SHA-512 (FIPS 180-4), modelling Go's `crypto/sha512`

Bytes are `Nat`s below 256, 64-bit words are `Nat`s reduced modulo
`2^64`.  The digest accumulator of a `hash.Hash` is modelled
functionally: the bytes fed so far, with `Sum` hashing them at once
(incremental compression of the same bytes yields the same digest). -/

/-- Reduce to a 64-bit word. -/
def w64 (n : Nat) : Nat := n % 18446744073709551616

/-- 64-bit addition. -/
def add64 (a b : Nat) : Nat := w64 (a + b)

/-- 64-bit right rotation (second argument between 1 and 63). -/
def rotr64 (x n : Nat) : Nat :=
  w64 (Nat.lor (x >>> n) (x <<< (64 - n)))

/-- 64-bit complement (arguments are below `2^64`). -/
def not64 (x : Nat) : Nat := 18446744073709551615 - x

/-- SHA-512 round constants: fractional parts of the cube roots of the
first eighty primes. -/
def K512 : List Nat :=
[
  4794697086780616226, 8158064640168781261, 13096744586834688815, 16840607885511220156,
  4131703408338449720, 6480981068601479193, 10538285296894168987, 12329834152419229976,
  15566598209576043074, 1334009975649890238, 2608012711638119052, 6128411473006802146,
  8268148722764581231, 9286055187155687089, 11230858885718282805, 13951009754708518548,
  16472876342353939154, 17275323862435702243, 1135362057144423861, 2597628984639134821,
  3308224258029322869, 5365058923640841347, 6679025012923562964, 8573033837759648693,
  10970295158949994411, 12119686244451234320, 12683024718118986047, 13788192230050041572,
  14330467153632333762, 15395433587784984357, 489312712824947311, 1452737877330783856,
  2861767655752347644, 3322285676063803686, 5560940570517711597, 5996557281743188959,
  7280758554555802590, 8532644243296465576, 9350256976987008742, 10552545826968843579,
  11727347734174303076, 12113106623233404929, 14000437183269869457, 14369950271660146224,
  15101387698204529176, 15463397548674623760, 17586052441742319658, 1182934255886127544,
  1847814050463011016, 2177327727835720531, 2830643537854262169, 3796741975233480872,
  4115178125766777443, 5681478168544905931, 6601373596472566643, 7507060721942968483,
  8399075790359081724, 8693463985226723168, 9568029438360202098, 10144078919501101548,
  10430055236837252648, 11840083180663258601, 13761210420658862357, 14299343276471374635,
  14566680578165727644, 15097957966210449927, 16922976911328602910, 17689382322260857208,
  500013540394364858, 748580250866718886, 1242879168328830382, 1977374033974150939,
  2944078676154940804, 3659926193048069267, 4368137639120453308, 4836135668995329356,
  5532061633213252278, 6448918945643986474, 6902733635092675308, 7801388544844847127]

/-- SHA-512 initial hash value: fractional parts of the square roots of
the first eight primes. -/
def H512 : List Nat :=
[
  7640891576956012808, 13503953896175478587, 4354685564936845355, 11912009170470909681,
  5840696475078001361, 11170449401992604703, 2270897969802886507, 6620516959819538809]

/-- Big-endian byte rendering of `n` on `k` bytes. -/
def beBytes : Nat → Nat → List Nat
  | 0, _ => []
  | k + 1, n => beBytes k (n >>> 8) ++ [n % 256]

/-- Big-endian word from a byte list. -/
def beWord (bs : List Nat) : Nat :=
  bs.foldl (fun a b => a * 256 + b) 0

/-- Split a list into chunks of `sz` (structural, fuelled by the
list's own length). -/
def chunksAux (sz : Nat) : Nat → List Nat → List (List Nat)
  | 0, _ => []
  | _, [] => []
  | fuel + 1, l => l.take sz :: chunksAux sz fuel (l.drop sz)

/-- Split a byte list into chunks of `sz` bytes. -/
def chunks (sz : Nat) (l : List Nat) : List (List Nat) :=
  chunksAux sz l.length l

/-- SHA-512 message padding: a `0x80` byte, zeros to 112 mod 128, and
the 128-bit big-endian bit length. -/
def sha512pad (msg : List Nat) : List Nat :=
  msg ++ [128] ++ List.replicate ((112 - (msg.length + 1) % 128) % 128) 0
      ++ beBytes 16 (8 * msg.length)

/-- One step of the message-schedule extension; the schedule is kept
reversed (head = most recent word). -/
def schedStep (rev : List Nat) : List Nat :=
  add64 (add64 (Nat.xor (Nat.xor (rotr64 (rev.getD 1 0) 19) (rotr64 (rev.getD 1 0) 61))
                        ((rev.getD 1 0) >>> 6))
               (rev.getD 6 0))
        (add64 (Nat.xor (Nat.xor (rotr64 (rev.getD 14 0) 1) (rotr64 (rev.getD 14 0) 8))
                        ((rev.getD 14 0) >>> 7))
               (rev.getD 15 0)) :: rev

/-- The 80-word message schedule of one 128-byte block. -/
def sha512schedule (block : List Nat) : List Nat :=
  (Nat.rec ((chunks 8 block).map beWord).reverse (fun _ ih => schedStep ih) 64 :
    List Nat).reverse

/-- The eight working variables of the compression function. -/
structure Sha8 where
  a : Nat
  b : Nat
  c : Nat
  d : Nat
  e : Nat
  f : Nat
  g : Nat
  h : Nat
deriving Repr

/-- One compression round with round constant `k` and schedule word `w`. -/
def sha512round (s : Sha8) (kw : Nat × Nat) : Sha8 :=
  let t1 := add64 s.h (add64 (Nat.xor (Nat.xor (rotr64 s.e 14) (rotr64 s.e 18)) (rotr64 s.e 41))
    (add64 (Nat.xor (Nat.land s.e s.f) (Nat.land (not64 s.e) s.g)) (add64 kw.1 kw.2)))
  let t2 := add64 (Nat.xor (Nat.xor (rotr64 s.a 28) (rotr64 s.a 34)) (rotr64 s.a 39))
    (Nat.xor (Nat.xor (Nat.land s.a s.b) (Nat.land s.a s.c)) (Nat.land s.b s.c))
  ⟨add64 t1 t2, s.a, s.b, s.c, add64 s.d t1, s.e, s.f, s.g⟩

/-- Compress one 128-byte block into the running hash value. -/
def sha512block (h : List Nat) (block : List Nat) : List Nat :=
  let s0 : Sha8 := ⟨h.getD 0 0, h.getD 1 0, h.getD 2 0, h.getD 3 0,
                    h.getD 4 0, h.getD 5 0, h.getD 6 0, h.getD 7 0⟩
  let s := (K512.zip (sha512schedule block)).foldl sha512round s0
  [add64 (h.getD 0 0) s.a, add64 (h.getD 1 0) s.b, add64 (h.getD 2 0) s.c,
   add64 (h.getD 3 0) s.d, add64 (h.getD 4 0) s.e, add64 (h.getD 5 0) s.f,
   add64 (h.getD 6 0) s.g, add64 (h.getD 7 0) s.h]

/-- SHA-512 digest (64 bytes) of a byte sequence. -/
def sha512 (msg : List Nat) : List Nat :=
  ((chunks 128 (sha512pad msg)).foldl sha512block H512).foldr
    (fun w acc => beBytes 8 w ++ acc) []

/-- Lowercase hexadecimal digit. -/
def hexDigit (n : Nat) : Char :=
  match n with
  | 0 => '0' | 1 => '1' | 2 => '2' | 3 => '3' | 4 => '4'
  | 5 => '5' | 6 => '6' | 7 => '7' | 8 => '8' | 9 => '9'
  | 10 => 'a' | 11 => 'b' | 12 => 'c' | 13 => 'd' | 14 => 'e'
  | _ => 'f'

/-- Lowercase hexadecimal rendering of a byte list: Go's
`fmt.Sprintf` with verb `%x` on a `[]byte`. -/
def hexOfBytes (bs : List Nat) : String :=
  String.mk (bs.foldr (fun b acc => hexDigit (b / 16 % 16) :: hexDigit (b % 16) :: acc) [])

/-- Lowercase-hex SHA-512 digest of a byte sequence. -/
def sha512hex (msg : List Nat) : String :=
  hexOfBytes (sha512 msg)

/-- The bytes of an ASCII string (for concrete test vectors). -/
def strBytes (s : String) : List Nat :=
  s.data.map Char.toNat

/-! ## Filesystem state and the `os` operations used by the package

A filesystem is an association list from absolute cleaned paths to
nodes.  The root directory of each rootedness (`"/"` and the working
directory `"."`) exists implicitly.  Symlink targets are stored as the
(cleaned) target path; the package only ever stores cleaned absolute
strings there, which are in bijection with `GoPath`s. -/

/-- A filesystem node: regular file with content bytes, symbolic link
with its raw target, or directory. -/
inductive FNode
  | file (content : List Nat)
  | symlink (target : GoPath)
  | dir
deriving DecidableEq, Repr

/-- Filesystem state: association list from path to node. -/
abbrev FState := List (GoPath × FNode)

/-- The node at a path, if any (first binding wins). -/
def getNode (s : FState) (p : GoPath) : Option FNode :=
  (s.find? (fun e => decide (e.1 = p))).map (fun e => e.2)

/-- Bind a path to a node, replacing any previous binding. -/
def setNode (s : FState) (p : GoPath) (n : FNode) : FState :=
  (p, n) :: s.filter (fun e => decide (e.1 ≠ p))

/-- A path names an existing directory (the roots exist implicitly). -/
def isDirAt (s : FState) (p : GoPath) : Bool :=
  p.comps.isEmpty || decide (getNode s p = some .dir)

/-- Some entry lies strictly below `p`. -/
def hasChild (s : FState) (p : GoPath) : Bool :=
  s.any (fun e => underB p e.1 && decide (e.1 ≠ p))

/-- Whether a node is a regular file. -/
def isFileNode (n : FNode) : Bool :=
  match n with
  | .file _ => true
  | _ => false

/-- Errors, following the package's error taxonomy: the `io.EOF`
sentinel, `filepath.ErrBadPattern`, context cancellation, and wrapped
filesystem errors (messages abbreviated from the `fmt.Errorf` texts). -/
inductive Ferr
  | eof
  | badPattern
  | canceled
  | fsError (msg : String)
deriving DecidableEq, Repr

/-- The nonempty prefixes of a path, shortest first: the directories
`os.MkdirAll` visits. -/
def mkPrefixes (p : GoPath) : List GoPath :=
  (List.range p.comps.length).map (fun i => (⟨p.rooted, p.comps.take (i + 1)⟩ : GoPath))

/-- One directory-creation step of `os.MkdirAll`. -/
def mkStep (st : FState) (q : GoPath) : Except Ferr FState :=
  match getNode st q with
  | none => .ok (setNode st q .dir)
  | some .dir => .ok st
  | some _ => .error (.fsError "mkdir: not a directory")

/-- `os.MkdirAll`: create every missing ancestor as a directory; an
existing directory is fine, an existing non-directory is an error. -/
def osMkdirAll (p : GoPath) (s : FState) : Except Ferr FState :=
  (mkPrefixes p).foldlM mkStep s

/-- `os.Create`: truncate-or-create a regular file; the parent must
exist as a directory.  (The model is used only for fresh temp-file
paths; a pre-existing symlink at the path, which Go would write
through, is reported as an error.) -/
def osCreate (p : GoPath) (s : FState) : Except Ferr FState :=
  if !(isDirAt s (dirOf p)) then .error (.fsError "create: no such directory")
  else match getNode s p with
    | some .dir => .error (.fsError "create: is a directory")
    | some (.symlink _) => .error (.fsError "create: through-symlink write not modelled")
    | _ => .ok (setNode s p (.file []))

/-- `os.Rename` (POSIX `rename(2)`): renaming a path to itself
succeeds and does nothing; the source must exist; the destination's
parent must exist; a destination inside the source subtree or an
existing destination directory is an error; otherwise the source
subtree is relocated, atomically replacing a non-directory
destination. -/
def osRename (old new : GoPath) (s : FState) : Except Ferr FState :=
  if old = new then .ok s
  else match getNode s old with
    | none => .error (.fsError "rename: no such file or directory")
    | some _ =>
      if underB old new then .error (.fsError "rename: invalid destination")
      else if !(isDirAt s (dirOf new)) then .error (.fsError "rename: no such directory")
      else match getNode s new with
        | some .dir => .error (.fsError "rename: destination is a directory")
        | _ =>
          .ok ((s.filter (fun e => underB old e.1)).map
                (fun e => ((⟨new.rooted, new.comps ++ e.1.comps.drop old.comps.length⟩ : GoPath), e.2))
              ++ s.filter (fun e => decide (¬ under old e.1 ∧ e.1 ≠ new)))

/-- `os.RemoveAll`: delete the path and everything below it; a missing
path is not an error. -/
def osRemoveAll (p : GoPath) (s : FState) : Except Ferr FState :=
  .ok (s.filter (fun e => decide (¬ under p e.1)))

/-- `os.Remove`: delete one entry; missing entry or non-empty
directory is an error. -/
def osRemove (p : GoPath) (s : FState) : Except Ferr FState :=
  match getNode s p with
  | none => .error (.fsError "remove: no such file or directory")
  | some .dir =>
    if hasChild s p then .error (.fsError "remove: directory not empty")
    else .ok (s.filter (fun e => decide (e.1 ≠ p)))
  | some _ => .ok (s.filter (fun e => decide (e.1 ≠ p)))

/-- `os.Symlink target p`: create a symlink at `p`; an existing entry
at `p` is an error (`EEXIST` — `symlink(2)` never overwrites); the
parent must exist as a directory. -/
def osSymlink (target p : GoPath) (s : FState) : Except Ferr FState :=
  match getNode s p with
  | some _ => .error (.fsError "symlink: file exists")
  | none =>
    if !(isDirAt s (dirOf p)) then .error (.fsError "symlink: no such directory")
    else .ok (setNode s p (.symlink target))

/-- Resolve a symlink chain (bounded as the kernel bounds `ELOOP`). -/
def resolvePath (s : FState) : Nat → GoPath → Except Ferr GoPath
  | 0, _ => .error (.fsError "too many levels of symbolic links")
  | fuel + 1, p =>
    match getNode s p with
    | some (.symlink t) => resolvePath s fuel t
    | _ => .ok p

/-- `os.Open` followed by reading the stream to its end: follow the
symlink chain and return the file's content. -/
def osOpenRead (p : GoPath) (s : FState) : Except Ferr (List Nat) := do
  let q ← resolvePath s 40 p
  match getNode s q with
  | some (.file c) => .ok c
  | some .dir => .error (.fsError "read: is a directory")
  | some (.symlink _) => .error (.fsError "too many levels of symbolic links")
  | none => .error (.fsError "open: no such file or directory")

/-- `isDirEmpty` (`fs.go`): `os.Open` the path and read one directory
name; `io.EOF` means empty.  A missing path is an error (the open
fails), a regular file is an error (the readdir fails). -/
def isDirEmptyM (p : GoPath) (s : FState) : Except Ferr Bool := do
  let q ← resolvePath s 40 p
  match getNode s q with
  | some .dir => .ok (!(hasChild s q))
  | some (.file _) => .error (.fsError "readdirnames: not a directory")
  | some (.symlink _) => .error (.fsError "too many levels of symbolic links")
  | none =>
    if q.comps.isEmpty then .ok (!(hasChild s q))
    else .error (.fsError "open: no such file or directory")

/-- The loop body of `cleanTree` (`fs.go`), recursing on the reversed
element list of `dir`: while `dir != "/"`, check `Join(root, dir)` for
emptiness (an error aborts), stop at the first non-empty directory,
otherwise `os.RemoveAll` it and continue with `filepath.Dir(dir)`. -/
def cleanTreeAux (root : String) (revDir : List String) (s : FState) : Except Ferr FState :=
  match revDir with
  | [] => .ok s
  | _ :: rest => do
    let absDir := goJoin root true revDir.reverse
    let empty ← isDirEmptyM absDir s
    if !empty then .ok s
    else do
      let s' ← osRemoveAll absDir s
      cleanTreeAux root rest s'

/-- `cleanTree(root, dir)` for a rooted `dir` (as always called by the
package: `dir` is `filepath.Dir` of a forced-rooted link path). -/
def cleanTree (root : String) (dir : GoPath) (s : FState) : Except Ferr FState :=
  cleanTreeAux root dir.comps.reverse s

/-! ## The `FS` store (`fs.go`) -/

/-- The store configuration (`FS` struct).  `dirPerm` carries no
behaviour in the model. -/
structure FS where
  tempDir : String
  dataDir : String
  linkDir : String
  dirPerm : Nat

/-- `filepath.Join(string(filepath.Separator), linkName)`: the
forced-rooted form of a caller-supplied link name. -/
def rootedName (linkName : String) : GoPath :=
  ⟨true, cleanComps true (rawComps linkName)⟩

/-- The absolute link path used by `Create`, `Open`, `Rename` and
`Remove`: `filepath.Join(s.linkDir, filepath.Join(Separator, linkName))`. -/
def FS.absLink (fs : FS) (linkName : String) : GoPath :=
  goJoin fs.linkDir true (rootedName linkName).comps

/-- The write handle (`fileWriter` struct).  The running
`sha512.New()` accumulator is modelled by the bytes fed so far. -/
structure fileWriter where
  tempFileName : GoPath
  dataDir : String
  absLinkName : GoPath
  dirPerm : Nat
  digestBytes : List Nat

/-- `createFile` (`fs.go`): pick the temp path
`Join(tempDir, "<unixnano>.bin")` (the clock reading is the explicit
parameter `ts`), ensure its parent directory, create the temp file. -/
def createFile (tempDir dataDir : String) (absLinkName : GoPath) (dirPerm : Nat)
    (ts : Nat) (s : FState) : Except Ferr (fileWriter × FState) := do
  let tempFileName := goJoin tempDir false [Nat.repr ts ++ ".bin"]
  let s1 ← osMkdirAll (dirOf tempFileName) s
  let s2 ← osCreate tempFileName s1
  .ok (⟨tempFileName, dataDir, absLinkName, dirPerm, []⟩, s2)

/-- A caller write into the handle: `io.MultiWriter` fans the bytes
out to the temp file and to the digest accumulator.  (A write through
the handle's descriptor after the temp path was removed from the tree
is invisible in the tree.) -/
def fwWrite (w : fileWriter) (bs : List Nat) (s : FState) : fileWriter × FState :=
  let s' := match getNode s w.tempFileName with
    | some (.file c) => setNode s w.tempFileName (.file (c ++ bs))
    | _ => s
  ({ w with digestBytes := w.digestBytes ++ bs }, s')

/-- `fileWriter.Close` (`fs.go`): close the temp file, name the data
file `Join(dataDir, "<lowercase-hex-sha512>.bin")`, ensure the data
directory, rename temp into data, ensure the link's parent directory,
symlink the link path at the absolute data path. -/
def fwClose (w : fileWriter) (s : FState) : Except Ferr FState := do
  let absDataName := goJoin w.dataDir false [sha512hex w.digestBytes ++ ".bin"]
  let s1 ← osMkdirAll (dirOf absDataName) s
  let s2 ← osRename w.tempFileName absDataName s1
  let s3 ← osMkdirAll (dirOf w.absLinkName) s2
  osSymlink absDataName w.absLinkName s3

/-- `FS.Create`: open a write handle for a link name. -/
def FS.Create (fs : FS) (linkName : String) (ts : Nat) (s : FState) :
    Except Ferr (fileWriter × FState) :=
  createFile fs.tempDir fs.dataDir (fs.absLink linkName) fs.dirPerm ts s

/-- `FS.Open`: open the link path for reading (and read it to the
end). -/
def FS.Open (fs : FS) (linkName : String) (s : FState) : Except Ferr (List Nat) :=
  osOpenRead (fs.absLink linkName) s

/-- `FS.Rename`: ensure the new parent directory, rename old to new,
prune the old parent chain. -/
def FS.Rename (fs : FS) (oldLinkName newLinkName : String) (s : FState) :
    Except Ferr FState := do
  let s1 ← osMkdirAll (dirOf (fs.absLink newLinkName)) s
  let s2 ← osRename (fs.absLink oldLinkName) (fs.absLink newLinkName) s1
  cleanTree fs.linkDir (dirOf (rootedName oldLinkName)) s2

/-- `FS.Remove`: remove the link path (recursively), prune its parent
chain. -/
def FS.Remove (fs : FS) (linkName : String) (s : FState) : Except Ferr FState := do
  let s1 ← osRemoveAll (fs.absLink linkName) s
  cleanTree fs.linkDir (dirOf (rootedName linkName)) s1

/-- `FS.GC` (`fs.go` lines 123–126): the body is
`return errors.New("not implemented")` — the store is never scanned
and nothing is ever deleted. -/
def FS.GC (_fs : FS) (_s : FState) : Except Ferr FState :=
  .error (.fsError "not implemented")

/-! ## The dedupe utilities (`fsdedupe.go`, `fs.go` later revisions) -/

/-- The replacement step of `DedupeDirSymlink` for a duplicate regular
file at `fullpath` whose digest was first seen at `existing`
(`fsdedupe.go` lines 50–61): symlink `existing` at a temp name, then
`os.Remove` the original, then `os.Rename` the temp name over it.  The
three successive filesystem states are returned. -/
def dedupeReplace (existing fullpath tmpLink : GoPath) (s : FState) :
    Except Ferr (FState × FState × FState) := do
  let s1 ← osSymlink existing tmpLink s
  let s2 ← osRemove fullpath s1
  let s3 ← osRename tmpLink fullpath s2
  .ok (s1, s2, s3)

/-- One result of an `Iterator.Next()` call: a filename, or an error
(`io.EOF` is the end-of-input sentinel `Ferr.eof`). -/
inductive IterItem
  | str (s : String)
  | fail (e : Ferr)
deriving DecidableEq, Repr

/-- The loop of `DedupeSymlink` (`fs.go` lines 420–469): check the
context, pull the next filename (`io.EOF` breaks the loop; any other
iterator error returns `filepath.ErrBadPattern`), `os.Stat` it and
require a regular file, hash its contents (lowercase hex SHA-512),
record a first-seen digest, and for a repeated digest `os.Remove` the
file and `os.Symlink` it to the first-seen path. -/
def dedupeSymlinkLoop (ctxCanceled : Bool) :
    List IterItem → List (String × String) → FState → Except Ferr FState
  | items, byHash, s =>
    if ctxCanceled then .error .canceled
    else match items with
    | [] => .ok s
    | .fail .eof :: _ => .ok s
    | .fail _ :: _ => .error .badPattern
    | .str filename :: rest =>
      match (resolvePath s 40 (parsePath filename)).bind (fun q =>
          match getNode s q with
          | some (.file c) => .ok c
          | some .dir => .error (.fsError "not a regular file")
          | some (.symlink _) => .error (.fsError "too many levels of symbolic links")
          | none => .error (.fsError "stat: no such file or directory")) with
      | .error e => .error e
      | .ok c =>
        match byHash.find? (fun e => decide (e.1 = sha512hex c)) with
        | none => dedupeSymlinkLoop ctxCanceled rest ((sha512hex c, filename) :: byHash) s
        | some e =>
          match (osRemove (parsePath filename) s).bind
              (osSymlink (parsePath e.2) (parsePath filename)) with
          | .error e2 => .error e2
          | .ok s2 => dedupeSymlinkLoop ctxCanceled rest byHash s2

/-- `DedupeSymlink`: run the loop with an empty digest map. -/
def DedupeSymlink (ctxCanceled : Bool) (items : List IterItem) (s : FState) :
    Except Ferr FState :=
  dedupeSymlinkLoop ctxCanceled items [] s

/-- The nonempty prefixes of a component list (the ancestors a pruning
chain inspects), shortest first. -/
def ancPrefixes (l : List String) : List (List String) :=
  (List.range l.length).map (fun i => l.take (i + 1))

/-- The tree-pruning chain hypothesis: no inspected ancestor directory
of the chain is a symlink (as holds in every tree-consistent store
state, where ancestors of links are directories). -/
def chainOk (root : String) (rd : List String) (s : FState) : Prop :=
  ∀ c : List String, c ≠ [] → c <:+ rd →
    ∀ t, getNode s (goJoin root true c.reverse) ≠ some (FNode.symlink t)

/-- The well-formed store layout: three absolute, pairwise lexically
separated root directories (`<store-root>/temp`, `/data`, `/link`). -/
def RootsSeparated (fs : FS) : Prop :=
  isRooted fs.tempDir = true ∧ isRooted fs.dataDir = true ∧ isRooted fs.linkDir = true
  ∧ ¬ under (parsePath fs.tempDir) (parsePath fs.dataDir)
  ∧ ¬ under (parsePath fs.dataDir) (parsePath fs.tempDir)
  ∧ ¬ under (parsePath fs.tempDir) (parsePath fs.linkDir)
  ∧ ¬ under (parsePath fs.linkDir) (parsePath fs.tempDir)
  ∧ ¬ under (parsePath fs.dataDir) (parsePath fs.linkDir)
  ∧ ¬ under (parsePath fs.linkDir) (parsePath fs.dataDir)

instance (fs : FS) : Decidable (RootsSeparated fs) := by
  unfold RootsSeparated; infer_instance

/-! ## Lemmas about the path layer -/

theorem cleanStep_normal (r : Bool) (acc : List String) (c : String) (h : normalComp c) :
    cleanStep r acc c = c :: acc := by
  obtain ⟨h1, h2, h3⟩ := h
  unfold cleanStep
  rw [if_neg (by simp [h1, h2]), if_neg h3]

theorem foldl_cleanStep_normal (r : Bool) (ys : List String) :
    ∀ acc : List String, (∀ c ∈ ys, normalComp c) →
      ys.foldl (cleanStep r) acc = ys.reverse ++ acc := by
  induction ys with
  | nil => intro acc _; simp
  | cons y ys ih =>
    intro acc h
    rw [List.foldl_cons, cleanStep_normal r acc y (h y (by simp)),
      ih (y :: acc) (fun c hc => h c (by simp [hc])), List.reverse_cons,
      List.append_assoc, List.singleton_append]

/-- Cleaning past a suffix of normal elements just appends them. -/
theorem cleanComps_append_normal (r : Bool) (xs ys : List String)
    (h : ∀ c ∈ ys, normalComp c) :
    cleanComps r (xs ++ ys) = cleanComps r xs ++ ys := by
  unfold cleanComps
  rw [List.foldl_append, foldl_cleanStep_normal r ys _ h, List.reverse_append,
    List.reverse_reverse]

/-- Rooted cleaning emits only normal elements (a rooted clean path
contains no `".."`). -/
theorem cleanStep_true_normal_stack (acc : List String) (c : String)
    (h : ∀ x ∈ acc, normalComp x) :
    ∀ x ∈ cleanStep true acc c, normalComp x := by
  intro x hx
  unfold cleanStep at hx
  split at hx
  · exact h x hx
  · split at hx
    · split at hx
      · simp at hx
      · next top rest =>
        have htop := h top (by simp)
        rw [if_neg htop.2.2] at hx
        exact h x (List.mem_cons_of_mem top hx)
    · next h1 h2 =>
      rcases List.mem_cons.mp hx with hx | hx
      · subst hx
        exact ⟨fun e => h1 (Or.inl e), fun e => h1 (Or.inr e), h2⟩
      · exact h x hx

theorem foldl_cleanStep_true_normal (cs : List String) :
    ∀ acc : List String, (∀ x ∈ acc, normalComp x) →
      ∀ x ∈ cs.foldl (cleanStep true) acc, normalComp x := by
  induction cs with
  | nil => intro acc h; simpa using h
  | cons c cs ih =>
    intro acc h
    rw [List.foldl_cons]
    exact ih _ (cleanStep_true_normal_stack acc c h)

theorem cleanComps_true_normal (cs : List String) :
    ∀ x ∈ cleanComps true cs, normalComp x := by
  intro x hx
  rw [cleanComps, List.mem_reverse] at hx
  exact foldl_cleanStep_true_normal cs [] (by simp) x hx

theorem isRooted_ne_empty {a : String} (h : isRooted a = true) : a ≠ "" := by
  intro e
  rw [e] at h
  exact absurd h (by decide)

/-- `goJoin` on a rooted first argument. -/
theorem goJoin_rooted {a : String} (h : isRooted a = true) (br : Bool) (b : List String) :
    goJoin a br b = ⟨true, cleanComps true (rawComps a ++ b)⟩ := by
  rw [goJoin, if_neg (isRooted_ne_empty h), h]

/-- `goJoin` on a rooted first argument and normal second components:
the join is the cleaned first argument followed by the second. -/
theorem goJoin_rooted_normal {a : String} (h : isRooted a = true) (br : Bool)
    {b : List String} (hb : ∀ c ∈ b, normalComp c) :
    goJoin a br b = ⟨true, cleanComps true (rawComps a) ++ b⟩ := by
  rw [goJoin_rooted h br b, cleanComps_append_normal true _ _ hb]

theorem parsePath_rooted {a : String} (h : isRooted a = true) :
    parsePath a = ⟨true, cleanComps true (rawComps a)⟩ := by
  rw [parsePath, h]

theorem under_trans {a b c : GoPath} (h1 : under a b) (h2 : under b c) : under a c :=
  ⟨h1.1.trans h2.1, h1.2.trans h2.2⟩

/-- Two paths above a common path are comparable. -/
theorem under_comparable {a b c : GoPath} (h1 : under a c) (h2 : under b c) :
    under a b ∨ under b a := by
  rcases List.prefix_or_prefix_of_prefix h1.2 h2.2 with h | h
  · exact Or.inl ⟨h1.1.trans h2.1.symm, h⟩
  · exact Or.inr ⟨h2.1.trans h1.1.symm, h⟩

/-- A string with a nonempty suffix of length at least 3 appended is a
normal path element as soon as the suffix is slash-free; specialised:
anything ending in `".bin"` is normal. -/
theorem normalComp_bin (a : String) : normalComp (a ++ ".bin") := by
  refine ⟨?_, ?_, ?_⟩ <;> intro e <;>
    have h := congrArg String.length e <;>
    rw [String.length_append] at h <;>
    rw [show (".bin" : String).length = 4 from rfl] at h <;>
    first
      | (rw [show ("" : String).length = 0 from rfl] at h; omega)
      | (rw [show ("." : String).length = 1 from rfl] at h; omega)
      | (rw [show (".." : String).length = 2 from rfl] at h; omega)

/-! ## Lemmas about the filesystem state -/

theorem getNode_cons (a : GoPath × FNode) (s : FState) (q : GoPath) :
    getNode (a :: s) q = if a.1 = q then some a.2 else getNode s q := by
  by_cases h : a.1 = q
  · rw [getNode, List.find?_cons_of_pos _ (by simpa using h), if_pos h]
    rfl
  · rw [getNode, List.find?_cons_of_neg _ (by simpa using h), if_neg h]
    rfl

theorem getNode_append_some {l₁ : FState} (l₂ : FState) {q : GoPath} {n : FNode}
    (h : getNode l₁ q = some n) : getNode (l₁ ++ l₂) q = some n := by
  induction l₁ with
  | nil => rw [getNode] at h; simp at h
  | cons a l₁ ih =>
    rw [List.cons_append, getNode_cons]
    rw [getNode_cons] at h
    by_cases ha : a.1 = q
    · rwa [if_pos ha] at h ⊢
    · rw [if_neg ha] at h ⊢
      exact ih h

theorem getNode_append_none {l₁ : FState} (l₂ : FState) {q : GoPath}
    (h : getNode l₁ q = none) : getNode (l₁ ++ l₂) q = getNode l₂ q := by
  induction l₁ with
  | nil => rfl
  | cons a l₁ ih =>
    rw [List.cons_append, getNode_cons]
    rw [getNode_cons] at h
    by_cases ha : a.1 = q
    · rw [if_pos ha] at h; exact absurd h (by simp)
    · rw [if_neg ha] at h ⊢
      exact ih h

/-- Filtering with a predicate that keeps every binding of key `q`
does not change the node at `q`. -/
theorem getNode_filter_keep (s : FState) (pred : GoPath × FNode → Bool) (q : GoPath)
    (h : ∀ n, pred (q, n) = true) :
    getNode (s.filter pred) q = getNode s q := by
  induction s with
  | nil => rfl
  | cons a s ih =>
    rw [List.filter_cons]
    by_cases ha : a.1 = q
    · have : a = (q, a.2) := by rw [← ha]
      rw [this, h a.2, if_pos rfl, getNode_cons, getNode_cons, if_pos rfl, if_pos rfl]
    · by_cases hp : pred a = true
      · rw [if_pos hp, getNode_cons, getNode_cons, if_neg ha, if_neg ha]
        exact ih
      · rw [if_neg hp, getNode_cons, if_neg ha]
        exact ih

/-- Filtering with a predicate that drops every binding of key `q`
leaves nothing at `q`. -/
theorem getNode_filter_drop (s : FState) (pred : GoPath × FNode → Bool) (q : GoPath)
    (h : ∀ n, pred (q, n) = false) :
    getNode (s.filter pred) q = none := by
  induction s with
  | nil => rfl
  | cons a s ih =>
    rw [List.filter_cons]
    by_cases ha : a.1 = q
    · have : a = (q, a.2) := by rw [← ha]
      rw [this, h a.2, if_neg (by simp)]
      exact ih
    · by_cases hp : pred a = true
      · rw [if_pos hp, getNode_cons, if_neg ha]
        exact ih
      · rw [if_neg hp]
        exact ih

/-- A filtered state can only lose bindings: a key empty before stays
empty. -/
theorem getNode_filter_of_none (s : FState) (pred : GoPath × FNode → Bool) (q : GoPath)
    (h : getNode s q = none) : getNode (s.filter pred) q = none := by
  rw [getNode, Option.map_eq_none'] at h ⊢
  rw [List.find?_eq_none] at h ⊢
  intro e he
  exact h e (List.mem_of_mem_filter he)

theorem getNode_setNode_self (s : FState) (p : GoPath) (n : FNode) :
    getNode (setNode s p n) p = some n := by
  rw [setNode, getNode_cons, if_pos rfl]

theorem getNode_setNode_ne (s : FState) (p : GoPath) (n : FNode) {q : GoPath}
    (h : q ≠ p) : getNode (setNode s p n) q = getNode s q := by
  rw [setNode, getNode_cons, if_neg (by intro e; exact h e.symm)]
  exact getNode_filter_keep s _ q (fun n' => by simp [h])

/-- `getNode` of a list whose every key was rewritten to the constant
`new`: the first binding wins. -/
theorem getNode_map_key (l : FState) (new : GoPath) :
    getNode (l.map (fun e => (new, e.2))) new = l.head?.map (fun e => e.2) := by
  cases l with
  | nil => rfl
  | cons a l =>
    rw [List.map_cons, getNode_cons, if_pos rfl, List.head?_cons]
    rfl

theorem getNode_map_key_ne (l : FState) (new : GoPath) {q : GoPath} (h : q ≠ new) :
    getNode (l.map (fun e => (new, e.2))) q = none := by
  induction l with
  | nil => rfl
  | cons a l ih =>
    rw [List.map_cons, getNode_cons, if_neg (by intro e; exact h e.symm)]
    exact ih

/-- The node at `q` is the value of the first binding keyed `q`. -/
theorem getNode_eq_head_filter (s : FState) (q : GoPath) :
    getNode s q = ((s.filter (fun e => decide (e.1 = q))).head?).map (fun e => e.2) := by
  induction s with
  | nil => rfl
  | cons a s ih =>
    rw [getNode_cons, List.filter_cons]
    by_cases ha : a.1 = q
    · rw [if_pos ha, if_pos (by simpa using ha), List.head?_cons]
      rfl
    · rw [if_neg ha, if_neg (by simpa using ha)]
      exact ih

theorem under_refl (p : GoPath) : under p p :=
  ⟨rfl, List.prefix_rfl⟩

/-- Inversion of a successful `Except` bind. -/
theorem exceptBind_ok {α β : Type} {x : Except Ferr α} {f : α → Except Ferr β} {b : β}
    (h : x >>= f = .ok b) : ∃ a, x = .ok a ∧ f a = .ok b := by
  cases x with
  | error e => exact Except.noConfusion (show (Except.error e : Except Ferr β) = .ok b from h)
  | ok a => exact ⟨a, rfl, h⟩

theorem exceptPure_ok {α : Type} {a b : α}
    (h : (pure a : Except Ferr α) = .ok b) : a = b :=
  Except.ok.inj h

theorem mem_mkPrefixes {q p : GoPath} (h : q ∈ mkPrefixes p) :
    q.rooted = p.rooted ∧ q.comps ≠ [] ∧ q.comps <+: p.comps := by
  rw [mkPrefixes, List.mem_map] at h
  obtain ⟨i, hi, rfl⟩ := h
  rw [List.mem_range] at hi
  refine ⟨rfl, ?_, List.take_prefix _ _⟩
  have hlen : (p.comps.take (i + 1)).length = i + 1 := by
    rw [List.length_take]
    omega
  intro e
  have e' : p.comps.take (i + 1) = [] := e
  rw [e'] at hlen
  simp at hlen

/-- A successful `MkdirAll` fold preserves every existing binding. -/
theorem mkFold_pres_some :
    ∀ (qs : List GoPath) {s s' : FState}, qs.foldlM mkStep s = .ok s' →
      ∀ {q : GoPath} {n : FNode}, getNode s q = some n → getNode s' q = some n := by
  intro qs
  induction qs with
  | nil =>
    intro s s' h q n hq
    rw [List.foldlM_nil] at h
    rwa [← exceptPure_ok h]
  | cons a qs ih =>
    intro s s' h q n hq
    rw [List.foldlM_cons] at h
    obtain ⟨s1, h1, h2⟩ := exceptBind_ok h
    refine ih h2 ?_
    rw [mkStep] at h1
    cases hget : getNode s a with
    | none =>
      rw [hget] at h1
      have hs1 : s1 = setNode s a .dir := (Except.ok.inj h1).symm
      subst hs1
      have hqa : q ≠ a := by
        intro e
        rw [e, hget] at hq
        exact Option.noConfusion hq
      rwa [getNode_setNode_ne s a .dir hqa]
    | some n' =>
      rw [hget] at h1
      cases n' with
      | dir => rwa [← Except.ok.inj h1]
      | file c => exact Except.noConfusion h1
      | symlink t => exact Except.noConfusion h1

/-- A successful `MkdirAll` fold neither creates nor destroys
non-directory bindings. -/
theorem mkFold_nondir_iff :
    ∀ (qs : List GoPath) {s s' : FState}, qs.foldlM mkStep s = .ok s' →
      ∀ {q : GoPath} {n : FNode}, n ≠ .dir →
        (getNode s' q = some n ↔ getNode s q = some n) := by
  intro qs
  induction qs with
  | nil =>
    intro s s' h q n _
    rw [List.foldlM_nil] at h
    rw [← exceptPure_ok h]
  | cons a qs ih =>
    intro s s' h q n hn
    rw [List.foldlM_cons] at h
    obtain ⟨s1, h1, h2⟩ := exceptBind_ok h
    rw [ih h2 hn]
    rw [mkStep] at h1
    cases hget : getNode s a with
    | none =>
      rw [hget] at h1
      have hs1 : s1 = setNode s a .dir := (Except.ok.inj h1).symm
      subst hs1
      by_cases hqa : q = a
      · subst hqa
        rw [getNode_setNode_self, hget]
        constructor
        · intro e
          exact absurd (Option.some.inj e).symm hn
        · intro e
          exact Option.noConfusion e
      · rw [getNode_setNode_ne s a .dir hqa]
    | some n' =>
      rw [hget] at h1
      cases n' with
      | dir => rw [← Except.ok.inj h1]
      | file c => exact Except.noConfusion h1
      | symlink t => exact Except.noConfusion h1

/-- A successful `MkdirAll` fold changes no binding outside the
visited directory list. -/
theorem mkFold_frame :
    ∀ (qs : List GoPath) {s s' : FState}, qs.foldlM mkStep s = .ok s' →
      ∀ {q : GoPath}, q ∉ qs → getNode s' q = getNode s q := by
  intro qs
  induction qs with
  | nil =>
    intro s s' h q _
    rw [List.foldlM_nil] at h
    rw [← exceptPure_ok h]
  | cons a qs ih =>
    intro s s' h q hq
    rw [List.foldlM_cons] at h
    obtain ⟨s1, h1, h2⟩ := exceptBind_ok h
    have hqa : q ≠ a := fun e => hq (e ▸ List.mem_cons_self a qs)
    have hqs : q ∉ qs := fun e => hq (List.mem_cons_of_mem a e)
    rw [ih h2 hqs]
    rw [mkStep] at h1
    cases hget : getNode s a with
    | none =>
      rw [hget] at h1
      rw [← Except.ok.inj h1, getNode_setNode_ne s a .dir hqa]
    | some n' =>
      rw [hget] at h1
      cases n' with
      | dir => rw [← Except.ok.inj h1]
      | file c => exact Except.noConfusion h1
      | symlink t => exact Except.noConfusion h1

/-- Every binding after a successful `MkdirAll` fold was either
already present or is a directory at a visited path. -/
theorem mkFold_mem :
    ∀ (qs : List GoPath) {s s' : FState}, qs.foldlM mkStep s = .ok s' →
      ∀ e ∈ s', e ∈ s ∨ (e.2 = FNode.dir ∧ e.1 ∈ qs) := by
  intro qs
  induction qs with
  | nil =>
    intro s s' h e he
    rw [List.foldlM_nil] at h
    rw [← exceptPure_ok h] at he
    exact Or.inl he
  | cons a qs ih =>
    intro s s' h e he
    rw [List.foldlM_cons] at h
    obtain ⟨s1, h1, h2⟩ := exceptBind_ok h
    rw [mkStep] at h1
    cases hget : getNode s a with
    | none =>
      rw [hget] at h1
      have hs1 : s1 = setNode s a .dir := (Except.ok.inj h1).symm
      subst hs1
      rcases ih h2 e he with h3 | h3
      · rw [setNode] at h3
        rcases List.mem_cons.mp h3 with h4 | h4
        · exact Or.inr ⟨by rw [h4], by rw [h4]; exact List.mem_cons_self a qs⟩
        · exact Or.inl (List.mem_of_mem_filter h4)
      · exact Or.inr ⟨h3.1, List.mem_cons_of_mem a h3.2⟩
    | some n' =>
      rw [hget] at h1
      cases n' with
      | dir =>
        have hs1 : s1 = s := (Except.ok.inj h1).symm
        subst hs1
        rcases ih h2 e he with h3 | h3
        · exact Or.inl h3
        · exact Or.inr ⟨h3.1, List.mem_cons_of_mem a h3.2⟩
      | file c => exact Except.noConfusion h1
      | symlink t => exact Except.noConfusion h1

theorem osMkdirAll_pres_some {p : GoPath} {s s' : FState}
    (h : osMkdirAll p s = .ok s') {q : GoPath} {n : FNode}
    (hq : getNode s q = some n) : getNode s' q = some n :=
  mkFold_pres_some (mkPrefixes p) h hq

theorem osMkdirAll_nondir_iff {p : GoPath} {s s' : FState}
    (h : osMkdirAll p s = .ok s') {q : GoPath} {n : FNode} (hn : n ≠ .dir) :
    getNode s' q = some n ↔ getNode s q = some n :=
  mkFold_nondir_iff (mkPrefixes p) h hn

theorem osMkdirAll_frame {p : GoPath} {s s' : FState}
    (h : osMkdirAll p s = .ok s') {q : GoPath} (hq : ¬ under q p ∨ q.comps = []) :
    getNode s' q = getNode s q := by
  refine mkFold_frame (mkPrefixes p) h ?_
  intro hmem
  obtain ⟨h1, h2, h3⟩ := mem_mkPrefixes hmem
  rcases hq with hq | hq
  · exact hq ⟨h1, h3⟩
  · exact h2 hq

theorem osMkdirAll_mem {p : GoPath} {s s' : FState}
    (h : osMkdirAll p s = .ok s') :
    ∀ e ∈ s', e ∈ s ∨ (e.2 = FNode.dir ∧ e.1 ∈ mkPrefixes p) :=
  mkFold_mem (mkPrefixes p) h

theorem osRemoveAll_ok {p : GoPath} {s : FState} :
    osRemoveAll p s = .ok (s.filter (fun e => decide (¬ under p e.1))) := rfl

theorem removeAll_getNode_under {p q : GoPath} (s : FState) (h : under p q) :
    getNode (s.filter (fun e => decide (¬ under p e.1))) q = none :=
  getNode_filter_drop s _ q (fun _ => by simp [h])

theorem removeAll_getNode_not {p q : GoPath} (s : FState) (h : ¬ under p q) :
    getNode (s.filter (fun e => decide (¬ under p e.1))) q = getNode s q :=
  getNode_filter_keep s _ q (fun _ => by simp [h])

theorem osSymlink_ok_elim {t p : GoPath} {s s' : FState}
    (h : osSymlink t p s = .ok s') :
    getNode s p = none ∧ isDirAt s (dirOf p) = true ∧ s' = setNode s p (.symlink t) := by
  rw [osSymlink] at h
  cases hget : getNode s p with
  | none =>
    rw [hget] at h
    by_cases hd : isDirAt s (dirOf p) = true
    · rw [if_neg (by simp [hd])] at h
      exact ⟨rfl, hd, (Except.ok.inj h).symm⟩
    · rw [if_pos (by simpa using hd)] at h
      exact Except.noConfusion h
  | some n =>
    rw [hget] at h
    exact Except.noConfusion h

theorem osCreate_ok_elim {p : GoPath} {s s' : FState}
    (h : osCreate p s = .ok s') :
    isDirAt s (dirOf p) = true ∧ s' = setNode s p (.file []) := by
  rw [osCreate] at h
  by_cases hd : isDirAt s (dirOf p) = true
  · rw [if_neg (by simp [hd])] at h
    refine ⟨hd, ?_⟩
    cases hget : getNode s p with
    | none => rw [hget] at h; exact (Except.ok.inj h).symm
    | some n =>
      rw [hget] at h
      cases n with
      | file c => exact (Except.ok.inj h).symm
      | dir => exact Except.noConfusion h
      | symlink t => exact Except.noConfusion h
  · rw [if_pos (by simpa using hd)] at h
    exact Except.noConfusion h

theorem osRename_ok_self {old : GoPath} {s s' : FState}
    (h : osRename old old s = .ok s') : s' = s := by
  rw [osRename, if_pos rfl] at h
  exact (Except.ok.inj h).symm

theorem osRename_ok_elim {old new : GoPath} {s s' : FState} (hne : old ≠ new)
    (h : osRename old new s = .ok s') :
    (∃ n₀, getNode s old = some n₀) ∧ ¬ under old new
      ∧ isDirAt s (dirOf new) = true ∧ getNode s new ≠ some .dir
      ∧ s' = (s.filter (fun e => underB old e.1)).map
              (fun e => ((⟨new.rooted, new.comps ++ e.1.comps.drop old.comps.length⟩ : GoPath), e.2))
            ++ s.filter (fun e => decide (¬ under old e.1 ∧ e.1 ≠ new)) := by
  rw [osRename, if_neg hne] at h
  cases hget : getNode s old with
  | none => rw [hget] at h; exact Except.noConfusion h
  | some n₀ =>
    rw [hget] at h
    by_cases hu : underB old new = true
    · rw [if_pos hu] at h
      exact Except.noConfusion h
    · rw [if_neg hu] at h
      by_cases hd : isDirAt s (dirOf new) = true
      · rw [if_neg (by simp [hd])] at h
        cases hnew : getNode s new with
        | none =>
          rw [hnew] at h
          refine ⟨⟨n₀, rfl⟩, by simpa [underB] using hu, hd, by simp [hnew], (Except.ok.inj h).symm⟩
        | some n₁ =>
          rw [hnew] at h
          cases n₁ with
          | dir => exact Except.noConfusion h
          | file c =>
            exact ⟨⟨n₀, rfl⟩, by simpa [underB] using hu, hd, by simp [hnew], (Except.ok.inj h).symm⟩
          | symlink t =>
            exact ⟨⟨n₀, rfl⟩, by simpa [underB] using hu, hd, by simp [hnew], (Except.ok.inj h).symm⟩
      · rw [if_pos (by simpa using hd)] at h
        exact Except.noConfusion h

/-- Pointwise description of a successful rename of a childless
source: the node moves from `old` to `new` and nothing else changes. -/
theorem osRename_ok_point {old new : GoPath} {s s' : FState} (hne : old ≠ new)
    (hnc : hasChild s old = false) (h : osRename old new s = .ok s') :
    getNode s' new = getNode s old ∧ getNode s' old = none
      ∧ ∀ q, ¬ under old q → q ≠ new → getNode s' q = getNode s q := by
  obtain ⟨⟨n₀, hget⟩, _, _, _, hs'⟩ := osRename_ok_elim hne h
  have hfc : s.filter (fun e => underB old e.1)
      = s.filter (fun e => decide (e.1 = old)) := by
    refine List.filter_congr ?_
    intro e he
    by_cases hk : e.1 = old
    · simp [hk, underB, under_refl]
    · have : ¬ under old e.1 := by
        intro hu
        have : hasChild s old = true := by
          rw [hasChild, List.any_eq_true]
          exact ⟨e, he, by simp [underB, hu, hk]⟩
        rw [this] at hnc
        exact Bool.noConfusion hnc
      simp [underB, this, hk]
  have hmv : (s.filter (fun e => underB old e.1)).map
        (fun e => ((⟨new.rooted, new.comps ++ e.1.comps.drop old.comps.length⟩ : GoPath), e.2))
      = (s.filter (fun e => decide (e.1 = old))).map (fun e => (new, e.2)) := by
    rw [hfc]
    refine List.map_congr_left ?_
    intro e he
    have hk : e.1 = old := by
      have := (List.mem_filter.mp he).2
      simpa using this
    rw [hk, List.drop_length, List.append_nil]
  rw [hs', hmv]
  refine ⟨?_, ?_, ?_⟩
  · rw [getNode_eq_head_filter s old] at hget ⊢
    cases hl : (s.filter (fun e => decide (e.1 = old))).head? with
    | none =>
      rw [hl] at hget
      exact Option.noConfusion hget
    | some e0 =>
      have hm : getNode ((s.filter (fun e => decide (e.1 = old))).map (fun e => (new, e.2))) new
          = some e0.2 := by
        rw [getNode_map_key, hl]
        rfl
      rw [getNode_append_some _ hm]
      rfl
  · have hmoved : getNode ((s.filter (fun e => decide (e.1 = old))).map (fun e => (new, e.2))) old
        = none := getNode_map_key_ne _ new hne
    rw [getNode_append_none _ hmoved]
    exact getNode_filter_drop s _ old (fun n => by simp [under_refl])
  · intro q hq hqn
    have hmoved : getNode ((s.filter (fun e => decide (e.1 = old))).map (fun e => (new, e.2))) q
        = none := getNode_map_key_ne _ new hqn
    rw [getNode_append_none _ hmoved]
    exact getNode_filter_keep s _ q (fun n => by simp [hq, hqn])

theorem getNode_some_mem {s : FState} {q : GoPath} {n : FNode}
    (h : getNode s q = some n) : ∃ e ∈ s, e.1 = q ∧ e.2 = n := by
  induction s with
  | nil => exact Option.noConfusion h
  | cons a s ih =>
    rw [getNode_cons] at h
    by_cases ha : a.1 = q
    · rw [if_pos ha] at h
      exact ⟨a, List.mem_cons_self a s, ha, Option.some.inj h⟩
    · rw [if_neg ha] at h
      obtain ⟨e, he, h1, h2⟩ := ih h
      exact ⟨e, List.mem_cons_of_mem a he, h1, h2⟩

theorem eq_of_hasChild_false {s : FState} {p q : GoPath} {n : FNode}
    (hnc : hasChild s p = false) (hq : getNode s q = some n) (hu : under p q) :
    q = p := by
  by_contra hne
  obtain ⟨e, he, he1, _⟩ := getNode_some_mem hq
  have : hasChild s p = true := by
    rw [hasChild, List.any_eq_true]
    exact ⟨e, he, by simp [underB, he1, hu, hne]⟩
  rw [this] at hnc
  exact Bool.noConfusion hnc

theorem resolvePath_nonsym {s : FState} {p : GoPath} (fuel : Nat)
    (hsym : ∀ t, getNode s p ≠ some (.symlink t)) :
    resolvePath s (fuel + 1) p = .ok p := by
  rw [resolvePath]
  cases hget : getNode s p with
  | none => simp
  | some n =>
    cases n with
    | file c => simp
    | dir => simp
    | symlink t => exact absurd hget (hsym t)

theorem resolvePath_sym {s : FState} {p t : GoPath} (fuel : Nat)
    (h : getNode s p = some (.symlink t)) :
    resolvePath s (fuel + 1) p = resolvePath s fuel t := by
  rw [resolvePath, h]

theorem isDirEmptyM_ok_elim {p : GoPath} {s : FState} {b : Bool}
    (hsym : ∀ t, getNode s p ≠ some (.symlink t)) (hne : p.comps ≠ [])
    (h : isDirEmptyM p s = .ok b) :
    getNode s p = some .dir ∧ b = !(hasChild s p) := by
  rw [isDirEmptyM] at h
  have hres : resolvePath s 40 p = .ok p := resolvePath_nonsym 39 hsym
  obtain ⟨q, hq, h2⟩ := exceptBind_ok h
  rw [hres] at hq
  have hqp : q = p := (Except.ok.inj hq).symm
  subst hqp
  cases hget : getNode s q with
  | none =>
    rw [hget] at h2
    rw [if_neg (by simpa [List.isEmpty_iff] using hne)] at h2
    exact Except.noConfusion h2
  | some n =>
    rw [hget] at h2
    cases n with
    | dir => exact ⟨rfl, (Except.ok.inj h2).symm⟩
    | file c => exact Except.noConfusion h2
    | symlink t => exact absurd hget (hsym t)

theorem under_root_goJoin {root : String} (hroot : isRooted root = true)
    {c : List String} (hc : ∀ x ∈ c, normalComp x) :
    under (parsePath root) (goJoin root true c) := by
  rw [parsePath_rooted hroot, goJoin_rooted_normal hroot true hc]
  exact ⟨rfl, List.prefix_append _ _⟩

/-- A successful pruning pass only deletes empty directories: it
preserves every absent key, every non-directory binding, and every
binding outside the pruning root. -/
theorem cleanTreeAux_ok_pres {root : String} {rd : List String} {s s' : FState}
    (hroot : isRooted root = true) (hnorm : ∀ x ∈ rd, normalComp x)
    (hchain : chainOk root rd s)
    (h : cleanTreeAux root rd s = .ok s') :
    (∀ q, getNode s q = none → getNode s' q = none)
    ∧ (∀ q n, n ≠ .dir → getNode s q = some n → getNode s' q = some n)
    ∧ (∀ q, ¬ under (parsePath root) q → getNode s' q = getNode s q) := by
  induction rd generalizing s with
  | nil =>
    rw [cleanTreeAux] at h
    have : s = s' := Except.ok.inj h
    subst this
    exact ⟨fun _ hq => hq, fun _ _ _ hq => hq, fun _ _ => rfl⟩
  | cons c rest ih =>
    rw [cleanTreeAux] at h
    obtain ⟨b, hb, h2⟩ := exceptBind_ok h
    have hnormrev : ∀ x ∈ (c :: rest).reverse, normalComp x := by
      intro x hx
      exact hnorm x (List.mem_reverse.mp hx)
    have habs_ne : (goJoin root true (c :: rest).reverse).comps ≠ [] := by
      rw [goJoin_rooted_normal hroot true hnormrev]
      simp
    have hsym0 : ∀ t, getNode s (goJoin root true (c :: rest).reverse)
        ≠ some (FNode.symlink t) :=
      hchain (c :: rest) (by simp) List.suffix_rfl
    obtain ⟨hdir, hbval⟩ := isDirEmptyM_ok_elim hsym0 habs_ne hb
    cases hbc : hasChild s (goJoin root true (c :: rest).reverse) with
    | true =>
      rw [hbc] at hbval
      subst hbval
      rw [if_pos (show (!!true) = true by decide)] at h2
      have : s = s' := Except.ok.inj h2
      subst this
      exact ⟨fun _ hq => hq, fun _ _ _ hq => hq, fun _ _ => rfl⟩
    | false =>
      rw [hbc] at hbval
      subst hbval
      rw [if_neg (show ¬ ((!!false) = true) by decide)] at h2
      obtain ⟨s'', hrm, hrec⟩ := exceptBind_ok h2
      have hs'' : s'' = s.filter
          (fun e => decide (¬ under (goJoin root true (c :: rest).reverse) e.1)) :=
        (Except.ok.inj hrm).symm
      subst hs''
      have hchain' : chainOk root rest
          (s.filter (fun e => decide (¬ under (goJoin root true (c :: rest).reverse) e.1))) := by
        intro c' hc' hsuf t
        by_cases hu : under (goJoin root true (c :: rest).reverse) (goJoin root true c'.reverse)
        · rw [removeAll_getNode_under s hu]
          exact Option.noConfusion
        · rw [removeAll_getNode_not s hu]
          exact hchain c' hc' (hsuf.trans (List.suffix_cons c rest)) t
      obtain ⟨ih1, ih2, ih3⟩ := ih (fun x hx => hnorm x (List.mem_cons_of_mem c hx)) hchain' hrec
      refine ⟨?_, ?_, ?_⟩
      · intro q hq
        exact ih1 q (getNode_filter_of_none s _ q hq)
      · intro q n hn hq
        have hnu : ¬ under (goJoin root true (c :: rest).reverse) q := by
          intro hu
          have hqe := eq_of_hasChild_false hbc hq hu
          subst hqe
          rw [hq] at hdir
          exact hn (Option.some.inj hdir)
        refine ih2 q n hn ?_
        rw [removeAll_getNode_not s hnu]
        exact hq
      · intro q hq
        have hnu : ¬ under (goJoin root true (c :: rest).reverse) q := by
          intro hu
          exact hq (under_trans (under_root_goJoin hroot hnormrev) hu)
        rw [ih3 q hq, removeAll_getNode_not s hnu]

theorem hasChild_filter_le {s : FState} {pred : GoPath × FNode → Bool} {p : GoPath}
    (h : hasChild (s.filter pred) p = true) : hasChild s p = true := by
  rw [hasChild, List.any_eq_true] at h ⊢
  obtain ⟨e, he, hp⟩ := h
  exact ⟨e, List.mem_of_mem_filter he, hp⟩

theorem hasChild_setNode_le {s : FState} {p q : GoPath} {n : FNode}
    (h : hasChild (setNode s p n) q = true) :
    hasChild s q = true ∨ (under q p ∧ p ≠ q) := by
  rw [hasChild, List.any_eq_true] at h
  obtain ⟨e, he, hp⟩ := h
  rw [setNode] at he
  rcases List.mem_cons.mp he with he | he
  · subst he
    simp only [underB, Bool.and_eq_true, decide_eq_true_iff] at hp
    exact Or.inr ⟨hp.1, hp.2⟩
  · exact Or.inl (by
      rw [hasChild, List.any_eq_true]
      exact ⟨e, List.mem_of_mem_filter he, hp⟩)

theorem hasChild_mkFold {qs : List GoPath} {s s' : FState}
    (h : qs.foldlM mkStep s = .ok s') {p : GoPath}
    (hs : hasChild s p = false) (hq : ∀ q ∈ qs, ¬ (under p q ∧ q ≠ p)) :
    hasChild s' p = false := by
  cases hc : hasChild s' p with
  | false => rfl
  | true =>
    exfalso
    rw [hasChild, List.any_eq_true] at hc
    obtain ⟨e, he, hp⟩ := hc
    simp only [underB, Bool.and_eq_true, decide_eq_true_iff] at hp
    rcases mkFold_mem qs h e he with hmem | hmem
    · have : hasChild s p = true := by
        rw [hasChild, List.any_eq_true]
        exact ⟨e, hmem, by simp [underB, hp.1, hp.2]⟩
      rw [this] at hs
      exact Bool.noConfusion hs
    · exact hq e.1 hmem.2 ⟨hp.1, hp.2⟩

theorem hasChild_osMkdirAll {pth : GoPath} {s s' : FState}
    (h : osMkdirAll pth s = .ok s') {p : GoPath}
    (hs : hasChild s p = false) (hq : ∀ q, under p q → q ≠ p → ¬ under q pth) :
    hasChild s' p = false := by
  refine hasChild_mkFold h hs ?_
  intro q hmem ⟨h1, h2⟩
  obtain ⟨m1, _, m3⟩ := mem_mkPrefixes hmem
  exact hq q h1 h2 ⟨m1, m3⟩

theorem exceptBind_ok_left {α β : Type} (a : α) (f : α → Except Ferr β) :
    (Except.ok a >>= f) = f a := rfl

theorem exceptBind_error_left {α β : Type} (e : Ferr) (f : α → Except Ferr β) :
    ((Except.error e : Except Ferr α) >>= f) = .error e := rfl

/-! ## The claims -/

/-- **C1** (code_bug).  The claim describes `FS.GC` deleting exactly the
unreferenced data files after a successful call; but the body of
`FS.GC` (`fs.go` lines 123–126) is `return errors.New("not
implemented")`: for every store configuration and every store state it
returns an error, scans nothing and deletes nothing — no successful
call exists, contradicting the repository's own `TestFS_GC`
(`fs_test.go` lines 131 and 147, which require `GC()` to return `nil`,
and line 151, which requires the unreferenced data file to be gone
afterwards) and the method's own doc comment `"GC removes unreferenced
data files"`. -/
theorem FS.GC_always_not_implemented (fs : FS) (s : FState) :
    FS.GC fs s = .error (.fsError "not implemented") := rfl

/-- **C10** (confirmed).  Whenever the `DedupeSymlink` loop pulls a
non-`io.EOF` error from the iterator — at any iteration point, i.e.
for every digest map and store state reached so far, with the context
not cancelled — it returns exactly the constant
`filepath.ErrBadPattern`, independent of the iterator's actual error
`e`, which is discarded unwrapped; in particular `DedupeSymlink`
itself (empty initial digest map) does. -/
theorem DedupeSymlink_iterator_error_discarded (e : Ferr) (he : e ≠ .eof)
    (rest : List IterItem) (byHash : List (String × String)) (s : FState) :
    dedupeSymlinkLoop false (.fail e :: rest) byHash s = .error .badPattern
      ∧ DedupeSymlink false (.fail e :: rest) s = .error .badPattern := by
  have hl : ∀ bh : List (String × String),
      dedupeSymlinkLoop false (.fail e :: rest) bh s = .error .badPattern := by
    intro bh
    cases e with
    | eof => exact absurd rfl he
    | badPattern => rfl
    | canceled => rfl
    | fsError m => rfl
  exact ⟨hl byHash, hl []⟩

/-- Witness for **C10** at a concrete iterator whose `Next` fails with
an I/O-style error: the fixed `ErrBadPattern` comes back. -/
theorem DedupeSymlink_iterator_error_discarded_witness :
    dedupeSymlinkLoop false [.fail (.fsError "read: io failure")] [] []
        = .error .badPattern
      ∧ DedupeSymlink false [.fail (.fsError "read: io failure")] []
        = .error .badPattern :=
  DedupeSymlink_iterator_error_discarded (.fsError "read: io failure")
    (by decide) [] [] []

/-- **C8** (confirmed).  For every caller-supplied link name — `".."`
components and leading separators included — the absolute path
`filepath.Join(linkDir, filepath.Join("/", linkName))` computed by
`Create`, `Open`, `Rename` (for both of its arguments) and `Remove`
lies lexically inside the configured link root, provided the link root
is an absolute path (the `Store` configuration holds absolute paths):
the forced leading separator makes `Clean` swallow every leading
`".."` before the name is appended under `linkDir`. -/
theorem FS.absLink_confined (fs : FS) (linkName : String)
    (h : isRooted fs.linkDir = true) :
    under (parsePath fs.linkDir) (fs.absLink linkName) := by
  rw [FS.absLink, rootedName]
  exact under_root_goJoin h (cleanComps_true_normal (rawComps linkName))

/-- Witness for **C8**: a hostile name full of `".."` still lands
inside `/s/link`. -/
theorem FS.absLink_confined_witness :
    under (parsePath "/s/link")
        (FS.absLink ⟨"/s/temp", "/s/data", "/s/link", 448⟩ "../../../etc/passwd")
      ∧ FS.absLink ⟨"/s/temp", "/s/data", "/s/link", 448⟩ "../../../etc/passwd"
        = ⟨true, ["s", "link", "etc", "passwd"]⟩ :=
  ⟨FS.absLink_confined ⟨"/s/temp", "/s/data", "/s/link", 448⟩ "../../../etc/passwd"
      (by decide),
    by decide⟩

/-- **C5** counterexample.  The claim says pruning a nonexistent
directory path succeeds as a no-op.  On the code it does not: with an
empty filesystem, `cleanTree("/s/link", "/ghost")` opens
`/s/link/ghost` for the emptiness check, the open fails, and the error
is returned. -/
theorem cleanTree_nonexistent_errs :
    cleanTree "/s/link" ⟨true, ["ghost"]⟩ ([] : FState)
      = .error (.fsError "open: no such file or directory") := rfl

/-- **C5** amended.  `cleanTree` on a directory path (other than the
root `"/"`) whose joined absolute path has no entry returns the error
from the failed `os.Open` of the emptiness check — it is an error, not
a silent no-op; no filesystem state is modified (the failure precedes
any removal).  Pruning stops silently only at an existing non-empty
directory. -/
theorem cleanTree_nonexistent_errs_amended (root : String) (dir : GoPath) (s : FState)
    (hne : dir.comps ≠ [])
    (hcomps : (goJoin root true dir.comps).comps ≠ [])
    (hmiss : getNode s (goJoin root true dir.comps) = none) :
    cleanTree root dir s = .error (.fsError "open: no such file or directory") := by
  rw [cleanTree]
  cases hrev : dir.comps.reverse with
  | nil =>
    refine absurd ?_ hne
    rw [← List.reverse_reverse dir.comps, hrev]
    rfl
  | cons c rest =>
    have hcc : (c :: rest).reverse = dir.comps := by
      rw [← hrev, List.reverse_reverse]
    rw [cleanTreeAux, hcc]
    have hdem : isDirEmptyM (goJoin root true dir.comps) s
        = .error (.fsError "open: no such file or directory") := by
      have hres : resolvePath s 40 (goJoin root true dir.comps)
          = .ok (goJoin root true dir.comps) :=
        resolvePath_nonsym 39 (fun t ht => by
          rw [hmiss] at ht
          exact Option.noConfusion ht)
      rw [isDirEmptyM, hres, exceptBind_ok_left]
      simp only [hmiss]
      rw [if_neg (by simpa [List.isEmpty_iff] using hcomps)]
    rw [hdem, exceptBind_error_left]

/-- Witness for the amended **C5** at the concrete counterexample
input. -/
theorem cleanTree_nonexistent_errs_amended_witness :
    cleanTree "/s/link" ⟨true, ["ghost"]⟩ ([] : FState)
      = .error (.fsError "open: no such file or directory") :=
  cleanTree_nonexistent_errs_amended "/s/link" ⟨true, ["ghost"]⟩ []
    (by decide) (by decide) rfl

/-- **C9** counterexample.  The claim says an entry exists at the
duplicate's path at every intermediate state of the replacement.  On
the code it does not: `DedupeDirSymlink` runs `os.Remove(path)`
*before* `os.Rename(tmp, path)`, so in the state between the two
(the second component of the returned trace) the path has no entry.
Concrete run: `/d/dup.txt` duplicates `/d/orig.txt`. -/
theorem dedupeReplace_window_cex :
    dedupeReplace ⟨true, ["d", "orig.txt"]⟩ ⟨true, ["d", "dup.txt"]⟩
        ⟨true, ["d", "dup.txt.tmp-1"]⟩
        [(⟨true, ["d"]⟩, .dir), (⟨true, ["d", "orig.txt"]⟩, .file [1]),
          (⟨true, ["d", "dup.txt"]⟩, .file [1])]
      = .ok ([(⟨true, ["d", "dup.txt.tmp-1"]⟩, .symlink ⟨true, ["d", "orig.txt"]⟩),
              (⟨true, ["d"]⟩, .dir), (⟨true, ["d", "orig.txt"]⟩, .file [1]),
              (⟨true, ["d", "dup.txt"]⟩, .file [1])],
            [(⟨true, ["d", "dup.txt.tmp-1"]⟩, .symlink ⟨true, ["d", "orig.txt"]⟩),
              (⟨true, ["d"]⟩, .dir), (⟨true, ["d", "orig.txt"]⟩, .file [1])],
            [(⟨true, ["d", "dup.txt"]⟩, .symlink ⟨true, ["d", "orig.txt"]⟩),
              (⟨true, ["d"]⟩, .dir), (⟨true, ["d", "orig.txt"]⟩, .file [1])])
    ∧ getNode [((⟨true, ["d", "dup.txt.tmp-1"]⟩ : GoPath),
          FNode.symlink ⟨true, ["d", "orig.txt"]⟩),
          (⟨true, ["d"]⟩, .dir), (⟨true, ["d", "orig.txt"]⟩, .file [1])]
        ⟨true, ["d", "dup.txt"]⟩ = none :=
  ⟨rfl, rfl⟩

/-- **C9** amended.  In the replacement step of `DedupeDirSymlink`, the
duplicate's path holds an entry before the replacement, after the
temp-symlink creation, and after the final rename (then: the symlink
to the first-seen path) — but **not** in the state between
`os.Remove` and `os.Rename`: the observer-visible window in which the
path is absent.  The replacement is therefore not atomic as claimed;
only the final `rename` step is. -/
theorem dedupeReplace_window (existing fullpath tmp : GoPath) (s : FState)
    {c : List Nat} {s1 s2 s3 : FState}
    (hfile : getNode s fullpath = some (.file c))
    (htf : tmp ≠ fullpath)
    (hnc : hasChild s tmp = false)
    (h : dedupeReplace existing fullpath tmp s = .ok (s1, s2, s3)) :
    getNode s1 fullpath = some (.file c)
      ∧ getNode s2 fullpath = none
      ∧ getNode s3 fullpath = some (.symlink existing) := by
  rw [dedupeReplace] at h
  obtain ⟨s1', h1, h'⟩ := exceptBind_ok h
  obtain ⟨s2', h2, h''⟩ := exceptBind_ok h'
  obtain ⟨s3', h3, hh⟩ := exceptBind_ok h''
  have e1 : s1' = s1 := congrArg Prod.fst (Except.ok.inj hh)
  have e2 : s2' = s2 := congrArg (fun r => r.2.1) (Except.ok.inj hh)
  have e3 : s3' = s3 := congrArg (fun r => r.2.2) (Except.ok.inj hh)
  rw [e1] at h1 h2
  rw [e2] at h2 h3
  rw [e3] at h3
  obtain ⟨htmp0, _, hs1⟩ := osSymlink_ok_elim h1
  subst hs1
  have hs1full : getNode (setNode s tmp (.symlink existing)) fullpath = some (.file c) := by
    rw [getNode_setNode_ne s tmp _ (fun e => htf e.symm)]
    exact hfile
  have hs2 : s2 = (setNode s tmp (.symlink existing)).filter
      (fun e => decide (e.1 ≠ fullpath)) := by
    rw [osRemove, hs1full] at h2
    exact (Except.ok.inj h2).symm
  have hs2full : getNode s2 fullpath = none := by
    rw [hs2]
    exact getNode_filter_drop _ _ _ (fun n => by simp)
  have hnc1 : hasChild (setNode s tmp (.symlink existing)) tmp = false := by
    cases hcc : hasChild (setNode s tmp (.symlink existing)) tmp with
    | false => rfl
    | true =>
      rcases hasChild_setNode_le hcc with hcc2 | hcc2
      · rw [hcc2] at hnc
        exact Bool.noConfusion hnc
      · exact absurd rfl hcc2.2
  have hnc2 : hasChild s2 tmp = false := by
    cases hcc : hasChild s2 tmp with
    | false => rfl
    | true =>
      rw [hs2] at hcc
      rw [hasChild_filter_le hcc] at hnc1
      exact Bool.noConfusion hnc1
  obtain ⟨hr1, _, _⟩ := osRename_ok_point htf hnc2 h3
  have hs2tmp : getNode s2 tmp = some (.symlink existing) := by
    rw [hs2, getNode_filter_keep _ _ _ (fun n => by simp [htf]), getNode_setNode_self]
  exact ⟨hs1full, hs2full, by rw [hr1, hs2tmp]⟩

/-- Witness for the amended **C9** at the concrete duplicate pair:
present, present, absent, present along the trace. -/
theorem dedupeReplace_window_witness :
    getNode [(⟨true, ["d", "dup.txt.tmp-1"]⟩, .symlink ⟨true, ["d", "orig.txt"]⟩),
        (⟨true, ["d"]⟩, .dir), (⟨true, ["d", "orig.txt"]⟩, .file [1]),
        (⟨true, ["d", "dup.txt"]⟩, .file [1])] ⟨true, ["d", "dup.txt"]⟩
      = some (.file [1])
    ∧ getNode [(⟨true, ["d", "dup.txt.tmp-1"]⟩, .symlink ⟨true, ["d", "orig.txt"]⟩),
        (⟨true, ["d"]⟩, .dir), (⟨true, ["d", "orig.txt"]⟩, .file [1])]
        ⟨true, ["d", "dup.txt"]⟩ = none
    ∧ getNode [(⟨true, ["d", "dup.txt"]⟩, .symlink ⟨true, ["d", "orig.txt"]⟩),
        (⟨true, ["d"]⟩, .dir), (⟨true, ["d", "orig.txt"]⟩, .file [1])]
        ⟨true, ["d", "dup.txt"]⟩ = some (.symlink ⟨true, ["d", "orig.txt"]⟩) :=
  dedupeReplace_window ⟨true, ["d", "orig.txt"]⟩ ⟨true, ["d", "dup.txt"]⟩
    ⟨true, ["d", "dup.txt.tmp-1"]⟩
    [(⟨true, ["d"]⟩, .dir), (⟨true, ["d", "orig.txt"]⟩, .file [1]),
      (⟨true, ["d", "dup.txt"]⟩, .file [1])]
    rfl (by decide) rfl rfl

theorem under_dirOf (p : GoPath) : under (dirOf p) p :=
  ⟨rfl, List.dropLast_prefix p.comps⟩

theorem mem_ancPrefixes {c l : List String} (hpref : c <+: l) (hc : c ≠ []) :
    c ∈ ancPrefixes l := by
  rw [ancPrefixes, List.mem_map]
  have hlen := hpref.length_le
  have hpos : 0 < c.length := List.length_pos.mpr hc
  refine ⟨c.length - 1, by rw [List.mem_range]; omega, ?_⟩
  rw [show c.length - 1 + 1 = c.length by omega]
  exact (List.prefix_iff_eq_take.mp hpref).symm

theorem rootedName_normal (nm : String) :
    ∀ x ∈ (rootedName nm).comps, normalComp x := by
  rw [rootedName]
  exact cleanComps_true_normal (rawComps nm)

/-- **C6** counterexample.  The names `"a"` and `"./a"` are a pair of
distinct link names resolving to the same absolute link path; a
symlink exists at `"a"`, `FS.Rename("a", "./a")` succeeds (the
underlying `rename(2)` of a path to itself is a successful no-op), yet
afterwards the old name still resolves — contradicting "no entry
exists at old any longer". -/
theorem FS.Rename_alias_cex :
    FS.Rename ⟨"/t", "/d", "/l", 448⟩ "a" "./a"
        [(⟨true, ["l"]⟩, .dir), (⟨true, ["l", "a"]⟩, .symlink ⟨true, ["d", "x.bin"]⟩),
          (⟨true, ["d"]⟩, .dir), (⟨true, ["d", "x.bin"]⟩, .file [7])]
      = .ok [(⟨true, ["l"]⟩, .dir), (⟨true, ["l", "a"]⟩, .symlink ⟨true, ["d", "x.bin"]⟩),
          (⟨true, ["d"]⟩, .dir), (⟨true, ["d", "x.bin"]⟩, .file [7])]
    ∧ getNode [(⟨true, ["l"]⟩, .dir), (⟨true, ["l", "a"]⟩, .symlink ⟨true, ["d", "x.bin"]⟩),
          (⟨true, ["d"]⟩, .dir), (⟨true, ["d", "x.bin"]⟩, .file [7])]
        (FS.absLink ⟨"/t", "/d", "/l", 448⟩ "a")
      = some (.symlink ⟨true, ["d", "x.bin"]⟩) :=
  ⟨rfl, rfl⟩

/-- **C6** amended.  `Rename(old, new)` preserves the referent and
unlinks the old path **provided the two names resolve to distinct
absolute link paths**, in a store whose link root is absolute, where
the old link has no children, and where every strict ancestor of the
old link path is a directory (as in every tree-consistent store): then
after a successful `FS.Rename` the symlink at the new path carries the
old target string and no entry remains at the old path.  When the two
names alias the same path, the rename succeeds but the entry remains
(see the counterexample). -/
theorem FS.Rename_moves_referent (fs : FS) (old new : String) (s s' : FState)
    {t : GoPath}
    (hroot : isRooted fs.linkDir = true)
    (habs : fs.absLink old ≠ fs.absLink new)
    (hsym : getNode s (fs.absLink old) = some (.symlink t))
    (hnc : hasChild s (fs.absLink old) = false)
    (hanc : ∀ c ∈ ancPrefixes ((rootedName old).comps.dropLast),
      getNode s (goJoin fs.linkDir true c) = some .dir)
    (h : FS.Rename fs old new s = .ok s') :
    getNode s' (fs.absLink new) = some (.symlink t)
      ∧ getNode s' (fs.absLink old) = none := by
  rw [FS.Rename] at h
  obtain ⟨s1, h1, h'⟩ := exceptBind_ok h
  obtain ⟨s2, h2, h3⟩ := exceptBind_ok h'
  obtain ⟨_, hnu, _, hnewnd, _⟩ := osRename_ok_elim habs h2
  have hsym1 : getNode s1 (fs.absLink old) = some (.symlink t) :=
    osMkdirAll_pres_some h1 hsym
  have hnc1 : hasChild s1 (fs.absLink old) = false := by
    refine hasChild_osMkdirAll h1 hnc ?_
    intro q hq1 _ hq3
    exact hnu (under_trans hq1 (under_trans hq3 (under_dirOf _)))
  obtain ⟨hp1, hp2, hp3⟩ := osRename_ok_point habs hnc1 h2
  rw [cleanTree] at h3
  have hnormrd : ∀ x ∈ (dirOf (rootedName old)).comps.reverse, normalComp x := by
    intro x hx
    exact rootedName_normal old x
      ((List.dropLast_sublist _).subset (List.mem_reverse.mp hx))
  have hchain : chainOk fs.linkDir (dirOf (rootedName old)).comps.reverse s2 := by
    intro c hc hsuf t'
    have hpref : c.reverse <+: (rootedName old).comps.dropLast := by
      have := List.reverse_prefix.mpr hsuf
      rwa [List.reverse_reverse] at this
    have hcnorm : ∀ x ∈ c.reverse, normalComp x := by
      intro x hx
      exact rootedName_normal old x ((List.dropLast_sublist _).subset (hpref.subset hx))
    have hDc : goJoin fs.linkDir true c.reverse
        = ⟨true, cleanComps true (rawComps fs.linkDir) ++ c.reverse⟩ :=
      goJoin_rooted_normal hroot true hcnorm
    have hAc : fs.absLink old
        = ⟨true, cleanComps true (rawComps fs.linkDir) ++ (rootedName old).comps⟩ := by
      rw [FS.absLink]
      exact goJoin_rooted_normal hroot true (rootedName_normal old)
    have hcrevne : c.reverse ≠ [] := by
      intro e
      exact hc (by simpa using congrArg List.reverse e)
    have hlens : c.reverse.length ≤ (rootedName old).comps.length - 1 := by
      have := hpref.length_le
      rwa [List.length_dropLast] at this
    have hcrevpos : 0 < c.reverse.length := List.length_pos.mpr hcrevne
    have hlenD : (goJoin fs.linkDir true c.reverse).comps.length
        = (cleanComps true (rawComps fs.linkDir)).length + c.reverse.length := by
      rw [hDc, List.length_append]
    have hlenA : (fs.absLink old).comps.length
        = (cleanComps true (rawComps fs.linkDir)).length + (rootedName old).comps.length := by
      rw [hAc, List.length_append]
    have hdirD : getNode s (goJoin fs.linkDir true c.reverse) = some .dir :=
      hanc _ (mem_ancPrefixes hpref hcrevne)
    have hdirD1 : getNode s1 (goJoin fs.linkDir true c.reverse) = some .dir :=
      osMkdirAll_pres_some h1 hdirD
    have hDneB : goJoin fs.linkDir true c.reverse ≠ fs.absLink new := by
      intro e
      rw [e] at hdirD1
      exact hnewnd hdirD1
    have hnuAD : ¬ under (fs.absLink old) (goJoin fs.linkDir true c.reverse) := by
      intro hu
      have := hu.2.length_le
      omega
    rw [hp3 _ hnuAD hDneB, hdirD1]
    intro e
    exact FNode.noConfusion (Option.some.inj e)
  obtain ⟨pres1, pres2, _⟩ := cleanTreeAux_ok_pres hroot hnormrd hchain h3
  constructor
  · refine pres2 _ _ (fun e => FNode.noConfusion e) ?_
    rw [hp1]
    exact hsym1
  · exact pres1 _ hp2

/-- Witness for the amended **C6**: renaming `sub/f.txt` to `g.txt`
moves the symlink and unlinks the old path (the emptied `sub`
directory is pruned as well). -/
theorem FS.Rename_moves_referent_witness :
    getNode [((⟨true, ["l", "g.txt"]⟩ : GoPath), FNode.symlink ⟨true, ["d", "x.bin"]⟩),
        (⟨true, ["l"]⟩, .dir), (⟨true, ["d"]⟩, .dir), (⟨true, ["d", "x.bin"]⟩, .file [7])]
        (FS.absLink ⟨"/t", "/d", "/l", 448⟩ "g.txt")
      = some (.symlink ⟨true, ["d", "x.bin"]⟩)
    ∧ getNode [((⟨true, ["l", "g.txt"]⟩ : GoPath), FNode.symlink ⟨true, ["d", "x.bin"]⟩),
        (⟨true, ["l"]⟩, .dir), (⟨true, ["d"]⟩, .dir), (⟨true, ["d", "x.bin"]⟩, .file [7])]
        (FS.absLink ⟨"/t", "/d", "/l", 448⟩ "sub/f.txt")
      = none :=
  FS.Rename_moves_referent ⟨"/t", "/d", "/l", 448⟩ "sub/f.txt" "g.txt"
    [(⟨true, ["l"]⟩, .dir), (⟨true, ["l", "sub"]⟩, .dir),
      (⟨true, ["l", "sub", "f.txt"]⟩, .symlink ⟨true, ["d", "x.bin"]⟩),
      (⟨true, ["d"]⟩, .dir), (⟨true, ["d", "x.bin"]⟩, .file [7])]
    _ (by decide) (by decide) rfl rfl (by decide) rfl

/-- A successful pruning pass touches nothing outside the pruning
root. -/
theorem cleanTreeAux_ok_frame {root : String} {rd : List String} {s s' : FState}
    (hroot : isRooted root = true) (hnorm : ∀ x ∈ rd, normalComp x)
    (h : cleanTreeAux root rd s = .ok s') :
    ∀ q, ¬ under (parsePath root) q → getNode s' q = getNode s q := by
  induction rd generalizing s with
  | nil =>
    rw [cleanTreeAux] at h
    have : s = s' := Except.ok.inj h
    subst this
    exact fun _ _ => rfl
  | cons c rest ih =>
    rw [cleanTreeAux] at h
    obtain ⟨b, hb, h2⟩ := exceptBind_ok h
    cases hbb : b with
    | false =>
      rw [hbb, if_pos (by decide)] at h2
      have : s = s' := Except.ok.inj h2
      subst this
      exact fun _ _ => rfl
    | true =>
      rw [hbb, if_neg (by decide)] at h2
      obtain ⟨s'', hrm, hrec⟩ := exceptBind_ok h2
      have hs'' : s'' = s.filter
          (fun e => decide (¬ under (goJoin root true (c :: rest).reverse) e.1)) :=
        (Except.ok.inj hrm).symm
      subst hs''
      intro q hq
      have hnormrev : ∀ x ∈ (c :: rest).reverse, normalComp x := by
        intro x hx
        exact hnorm x (List.mem_reverse.mp hx)
      have hnu : ¬ under (goJoin root true (c :: rest).reverse) q := by
        intro hu
        exact hq (under_trans (under_root_goJoin hroot hnormrev) hu)
      rw [ih (fun x hx => hnorm x (List.mem_cons_of_mem c hx)) hrec q hq,
        removeAll_getNode_not s hnu]

/-- **C7** (confirmed).  With the data root and the (absolute) link
root lexically disjoint — as in the store's layout — a successful
`FS.Remove(name)` changes no binding at or under the data root: every
data file keeps its exact content, and in particular the data file the
removed symlink pointed to still exists.  `Remove` mutates the link
namespace only (`os.RemoveAll` of the forced-rooted link path plus
pruning inside the link root). -/
theorem FS.Remove_preserves_data (fs : FS) (name : String) (s s' : FState)
    (hlroot : isRooted fs.linkDir = true)
    (hd1 : ¬ under (parsePath fs.linkDir) (parsePath fs.dataDir))
    (hd2 : ¬ under (parsePath fs.dataDir) (parsePath fs.linkDir))
    (h : FS.Remove fs name s = .ok s') :
    ∀ q, under (parsePath fs.dataDir) q → getNode s' q = getNode s q := by
  rw [FS.Remove] at h
  obtain ⟨s1, h1, h2⟩ := exceptBind_ok h
  have hs1 : s1 = s.filter (fun e => decide (¬ under (fs.absLink name) e.1)) :=
    (Except.ok.inj h1).symm
  subst hs1
  rw [cleanTree] at h2
  have hnormrd : ∀ x ∈ (dirOf (rootedName name)).comps.reverse, normalComp x := by
    intro x hx
    exact rootedName_normal name x
      ((List.dropLast_sublist _).subset (List.mem_reverse.mp hx))
  intro q hq
  have hnl : ¬ under (parsePath fs.linkDir) q := by
    intro hl
    rcases under_comparable hl hq with hc | hc
    · exact hd1 hc
    · exact hd2 hc
  have hnabs : ¬ under (fs.absLink name) q := by
    intro hu
    exact hnl (under_trans (FS.absLink_confined fs name hlroot) hu)
  rw [cleanTreeAux_ok_frame hlroot hnormrd h2 q hnl, removeAll_getNode_not s hnabs]

/-- Witness for **C7**: removing `sub/f.txt` (which prunes `sub` too)
leaves the data file `/d/x.bin` bound to its exact content. -/
theorem FS.Remove_preserves_data_witness :
    getNode [((⟨true, ["l"]⟩ : GoPath), FNode.dir), (⟨true, ["d"]⟩, .dir),
        (⟨true, ["d", "x.bin"]⟩, .file [7])] ⟨true, ["d", "x.bin"]⟩
      = getNode [((⟨true, ["l"]⟩ : GoPath), FNode.dir), (⟨true, ["l", "sub"]⟩, .dir),
        (⟨true, ["l", "sub", "f.txt"]⟩, .symlink ⟨true, ["d", "x.bin"]⟩),
        (⟨true, ["d"]⟩, .dir), (⟨true, ["d", "x.bin"]⟩, .file [7])] ⟨true, ["d", "x.bin"]⟩ :=
  FS.Remove_preserves_data ⟨"/t", "/d", "/l", 448⟩ "sub/f.txt"
    [(⟨true, ["l"]⟩, .dir), (⟨true, ["l", "sub"]⟩, .dir),
      (⟨true, ["l", "sub", "f.txt"]⟩, .symlink ⟨true, ["d", "x.bin"]⟩),
      (⟨true, ["d"]⟩, .dir), (⟨true, ["d", "x.bin"]⟩, .file [7])]
    _ (by decide) (by decide) (by decide) rfl ⟨true, ["d", "x.bin"]⟩ (by decide)

theorem under_antisymm {a b : GoPath} (h1 : under a b) (h2 : under b a) : a = b := by
  cases a with
  | mk ar ac =>
    cases b with
    | mk br bc =>
      simp only [GoPath.mk.injEq]
      exact ⟨h1.1, h1.2.sublist.antisymm h2.2.sublist⟩

/-- Two paths under lexically separated roots are unrelated and
distinct. -/
theorem separated_pair {ra rb qa qb : GoPath}
    (hna : ¬ under ra rb) (hnb : ¬ under rb ra)
    (ha : under ra qa) (hb : under rb qb) : ¬ under qa qb ∧ qa ≠ qb := by
  constructor
  · intro hu
    rcases under_comparable (under_trans ha hu) hb with hc | hc
    · exact hna hc
    · exact hnb hc
  · intro e
    subst e
    rcases under_comparable ha hb with hc | hc
    · exact hna hc
    · exact hnb hc

theorem goJoin_singleton {d : String} (hd : isRooted d = true) {c : String}
    (hc : normalComp c) :
    goJoin d false [c] = ⟨true, cleanComps true (rawComps d) ++ [c]⟩ := by
  refine goJoin_rooted_normal hd false ?_
  intro x hx
  rw [List.mem_singleton] at hx
  subst hx
  exact hc

theorem dirOf_goJoin_singleton {d : String} (hd : isRooted d = true) {c : String}
    (hc : normalComp c) : dirOf (goJoin d false [c]) = parsePath d := by
  rw [goJoin_singleton hd hc, dirOf, parsePath_rooted hd]
  simp only [GoPath.mk.injEq]
  exact ⟨trivial, by rw [List.dropLast_concat]⟩

theorem under_parse_goJoin_singleton {d : String} (hd : isRooted d = true) {c : String}
    (hc : normalComp c) : under (parsePath d) (goJoin d false [c]) := by
  rw [goJoin_singleton hd hc, parsePath_rooted hd]
  exact ⟨rfl, List.prefix_append _ _⟩

theorem goJoin_singleton_comps_ne {d : String} (hd : isRooted d = true) {c : String}
    (hc : normalComp c) : (goJoin d false [c]).comps ≠ [] := by
  rw [goJoin_singleton hd hc]
  simp

theorem not_under_dirOf_of_under {T q p : GoPath} (hTne : T.comps ≠ [])
    (h1 : under T q) (hp : p = dirOf T) : ¬ under q p := by
  subst hp
  intro h3
  have l1 := h1.2.length_le
  have l3 := h3.2.length_le
  have hpos : 0 < T.comps.length := List.length_pos.mpr hTne
  rw [dirOf, List.length_dropLast] at l3
  omega

theorem self_mem_mkPrefixes {p : GoPath} (h : p.comps ≠ []) : p ∈ mkPrefixes p := by
  rw [mkPrefixes, List.mem_map]
  have hpos : 0 < p.comps.length := List.length_pos.mpr h
  refine ⟨p.comps.length - 1, by rw [List.mem_range]; omega, ?_⟩
  rw [show p.comps.length - 1 + 1 = p.comps.length by omega, List.take_length]

/-- After a successful `MkdirAll` fold, every visited path holds a
directory. -/
theorem mkFold_visited_dir :
    ∀ (qs : List GoPath) {s s' : FState}, qs.foldlM mkStep s = .ok s' →
      ∀ q ∈ qs, getNode s' q = some .dir := by
  intro qs
  induction qs with
  | nil => intro s s' _ q hq; exact absurd hq (List.not_mem_nil q)
  | cons a qs ih =>
    intro s s' h q hq
    rw [List.foldlM_cons] at h
    obtain ⟨s1, h1, h2⟩ := exceptBind_ok h
    rcases List.mem_cons.mp hq with hq | hq
    · subst hq
      refine mkFold_pres_some qs h2 ?_
      rw [mkStep] at h1
      cases hget : getNode s q with
      | none =>
        rw [hget] at h1
        rw [← Except.ok.inj h1, getNode_setNode_self]
      | some n =>
        rw [hget] at h1
        cases n with
        | dir => rw [← Except.ok.inj h1]; exact hget
        | file c => exact Except.noConfusion h1
        | symlink t => exact Except.noConfusion h1
    · exact ih h2 q hq

theorem hasChild_setNode_self {s : FState} {p : GoPath} {n : FNode}
    (h : hasChild s p = false) : hasChild (setNode s p n) p = false := by
  cases hc : hasChild (setNode s p n) p with
  | false => rfl
  | true =>
    rcases hasChild_setNode_le hc with hc2 | hc2
    · rw [hc2] at h
      exact Bool.noConfusion h
    · exact absurd rfl hc2.2

theorem parse_ne_goJoin_singleton {d : String} (hd : isRooted d = true) {c : String}
    (hc : normalComp c) : parsePath d ≠ goJoin d false [c] := by
  intro e
  have hlen := congrArg (fun p => p.comps.length) e
  rw [goJoin_singleton hd hc, parsePath_rooted hd] at hlen
  simp only [List.length_append, List.length_singleton] at hlen
  omega

/-- The composite effect of one `Create`/write-`B`/`Close` cycle on a
store with separated roots, when the fresh temp path has no stale
children: the data file named by the lowercase-hex SHA-512 digest of
`B` plus `".bin"` holds exactly `B`, the link path holds a symlink to
that data path, the data root is a directory, and every other binding
at or under the data root is untouched. -/
theorem createClose_effect (fs : FS) (name : String) (ts : Nat) (B : List Nat) (s : FState)
    {w : fileWriter} {s2 s7 : FState}
    (hsep : RootsSeparated fs)
    (hnct : hasChild s (goJoin fs.tempDir false [Nat.repr ts ++ ".bin"]) = false)
    (hcr : FS.Create fs name ts s = .ok (w, s2))
    (hcl : fwClose (fwWrite w B s2).1 (fwWrite w B s2).2 = .ok s7) :
    getNode s7 (goJoin fs.dataDir false [sha512hex B ++ ".bin"]) = some (.file B)
    ∧ getNode s7 (fs.absLink name)
        = some (.symlink (goJoin fs.dataDir false [sha512hex B ++ ".bin"]))
    ∧ getNode s7 (parsePath fs.dataDir) = some .dir
    ∧ (∀ q, under (parsePath fs.dataDir) q
        → q ≠ goJoin fs.dataDir false [sha512hex B ++ ".bin"]
        → q ≠ parsePath fs.dataDir
        → getNode s7 q = getNode s q) := by
  obtain ⟨htR, hdR, hlR, hTD, hDT, hTL, hLT, hDL, hLD⟩ := hsep
  have hnT : normalComp (Nat.repr ts ++ ".bin") := normalComp_bin _
  have hnD : normalComp (sha512hex B ++ ".bin") := normalComp_bin _
  have hunderT : under (parsePath fs.tempDir)
      (goJoin fs.tempDir false [Nat.repr ts ++ ".bin"]) :=
    under_parse_goJoin_singleton htR hnT
  have hunderD : under (parsePath fs.dataDir)
      (goJoin fs.dataDir false [sha512hex B ++ ".bin"]) :=
    under_parse_goJoin_singleton hdR hnD
  have hunderL : under (parsePath fs.linkDir) (fs.absLink name) :=
    FS.absLink_confined fs name hlR
  obtain ⟨hnuTD, hneTD⟩ := separated_pair hTD hDT hunderT hunderD
  obtain ⟨hnuDL, hneDL⟩ := separated_pair hDL hLD hunderD hunderL
  have hTne : (goJoin fs.tempDir false [Nat.repr ts ++ ".bin"]).comps ≠ [] :=
    goJoin_singleton_comps_ne htR hnT
  have hdD : dirOf (goJoin fs.dataDir false [sha512hex B ++ ".bin"])
      = parsePath fs.dataDir := dirOf_goJoin_singleton hdR hnD
  simp only [FS.Create, createFile] at hcr
  obtain ⟨s1m, hmk1, hcr2⟩ := exceptBind_ok hcr
  obtain ⟨s2m, hct, hfin⟩ := exceptBind_ok hcr2
  have hw : w = ⟨goJoin fs.tempDir false [Nat.repr ts ++ ".bin"], fs.dataDir,
      fs.absLink name, fs.dirPerm, []⟩ :=
    (congrArg Prod.fst (Except.ok.inj hfin)).symm
  have hs2 : s2 = s2m := (congrArg Prod.snd (Except.ok.inj hfin)).symm
  obtain ⟨hdirT, hs2m⟩ := osCreate_ok_elim hct
  rw [hw, hs2, hs2m] at hcl
  have hfw : fwWrite ⟨goJoin fs.tempDir false [Nat.repr ts ++ ".bin"], fs.dataDir,
        fs.absLink name, fs.dirPerm, []⟩ B
        (setNode s1m (goJoin fs.tempDir false [Nat.repr ts ++ ".bin"]) (.file []))
      = (⟨goJoin fs.tempDir false [Nat.repr ts ++ ".bin"], fs.dataDir,
          fs.absLink name, fs.dirPerm, B⟩,
        setNode (setNode s1m (goJoin fs.tempDir false [Nat.repr ts ++ ".bin"]) (.file []))
          (goJoin fs.tempDir false [Nat.repr ts ++ ".bin"]) (.file B)) := by
    simp [fwWrite, getNode_setNode_self]
  simp only [hfw] at hcl
  simp only [fwClose] at hcl
  obtain ⟨s4, hmk2, hcl2⟩ := exceptBind_ok hcl
  obtain ⟨s5, hrn, hcl3⟩ := exceptBind_ok hcl2
  obtain ⟨s6, hmk3, hsl⟩ := exceptBind_ok hcl3
  obtain ⟨hL6, _, hs7⟩ := osSymlink_ok_elim hsl
  have hnc1 : hasChild s1m (goJoin fs.tempDir false [Nat.repr ts ++ ".bin"]) = false :=
    hasChild_osMkdirAll hmk1 hnct (fun q hq1 _ => not_under_dirOf_of_under hTne hq1 rfl)
  have hnc2 : hasChild (setNode s1m (goJoin fs.tempDir false [Nat.repr ts ++ ".bin"])
      (.file [])) (goJoin fs.tempDir false [Nat.repr ts ++ ".bin"]) = false :=
    hasChild_setNode_self hnc1
  have hnc3 : hasChild (setNode (setNode s1m (goJoin fs.tempDir false [Nat.repr ts ++ ".bin"])
      (.file [])) (goJoin fs.tempDir false [Nat.repr ts ++ ".bin"]) (.file B))
      (goJoin fs.tempDir false [Nat.repr ts ++ ".bin"]) = false :=
    hasChild_setNode_self hnc2
  have hnc4 : hasChild s4 (goJoin fs.tempDir false [Nat.repr ts ++ ".bin"]) = false := by
    refine hasChild_osMkdirAll hmk2 hnc3 ?_
    intro q hq1 _ hq3
    exact hTD (under_trans (under_trans hunderT hq1) (hdD ▸ hq3))
  have hT3 : getNode (setNode (setNode s1m (goJoin fs.tempDir false [Nat.repr ts ++ ".bin"])
      (.file [])) (goJoin fs.tempDir false [Nat.repr ts ++ ".bin"]) (.file B))
      (goJoin fs.tempDir false [Nat.repr ts ++ ".bin"]) = some (.file B) :=
    getNode_setNode_self _ _ _
  have hT4 : getNode s4 (goJoin fs.tempDir false [Nat.repr ts ++ ".bin"])
      = some (.file B) := osMkdirAll_pres_some hmk2 hT3
  obtain ⟨hrn1, hrn2, hrn3⟩ := osRename_ok_point hneTD hnc4 hrn
  have hD5 : getNode s5 (goJoin fs.dataDir false [sha512hex B ++ ".bin"])
      = some (.file B) := by rw [hrn1, hT4]
  have hD6 : getNode s6 (goJoin fs.dataDir false [sha512hex B ++ ".bin"])
      = some (.file B) := osMkdirAll_pres_some hmk3 hD5
  have hD7 : getNode s7 (goJoin fs.dataDir false [sha512hex B ++ ".bin"])
      = some (.file B) := by
    rw [hs7, getNode_setNode_ne _ _ _ hneDL]
    exact hD6
  have hL7 : getNode s7 (fs.absLink name)
      = some (.symlink (goJoin fs.dataDir false [sha512hex B ++ ".bin"])) := by
    rw [hs7, getNode_setNode_self]
  have hDrootne : (parsePath fs.dataDir).comps ≠ [] := by
    intro e
    refine hDT ⟨?_, ?_⟩
    · rw [parsePath_rooted hdR, parsePath_rooted htR]
    · rw [e]
      exact List.nil_prefix
  have hroot4 : getNode s4 (parsePath fs.dataDir) = some .dir := by
    refine mkFold_visited_dir _ hmk2 _ ?_
    rw [hdD]
    exact self_mem_mkPrefixes hDrootne
  have hroot5 : getNode s5 (parsePath fs.dataDir) = some .dir := by
    rw [hrn3 _ (fun hu => hTD (under_trans hunderT hu)) (parse_ne_goJoin_singleton hdR hnD)]
    exact hroot4
  have hroot6 : getNode s6 (parsePath fs.dataDir) = some .dir :=
    osMkdirAll_pres_some hmk3 hroot5
  have hroot7 : getNode s7 (parsePath fs.dataDir) = some .dir := by
    rw [hs7, getNode_setNode_ne _ _ _
      (separated_pair hDL hLD (under_refl _) hunderL).2]
    exact hroot6
  refine ⟨hD7, hL7, hroot7, ?_⟩
  intro q hq hqD hqRoot
  have hq_notT : ¬ under q (dirOf (goJoin fs.tempDir false [Nat.repr ts ++ ".bin"])) := by
    intro hu
    have h1 : under (parsePath fs.dataDir) (goJoin fs.tempDir false [Nat.repr ts ++ ".bin"]) :=
      under_trans hq (under_trans hu (under_dirOf _))
    rcases under_comparable h1 hunderT with hc | hc
    · exact hDT hc
    · exact hTD hc
  have hfr1 : getNode s1m q = getNode s q := osMkdirAll_frame hmk1 (Or.inl hq_notT)
  have hqneT : q ≠ goJoin fs.tempDir false [Nat.repr ts ++ ".bin"] :=
    (separated_pair hDT hTD hq hunderT).2
  have hfr2 : getNode (setNode s1m (goJoin fs.tempDir false [Nat.repr ts ++ ".bin"])
      (.file [])) q = getNode s1m q := getNode_setNode_ne _ _ _ hqneT
  have hfr3 : getNode (setNode (setNode s1m (goJoin fs.tempDir false [Nat.repr ts ++ ".bin"])
      (.file [])) (goJoin fs.tempDir false [Nat.repr ts ++ ".bin"]) (.file B)) q
      = getNode (setNode s1m (goJoin fs.tempDir false [Nat.repr ts ++ ".bin"]) (.file [])) q :=
    getNode_setNode_ne _ _ _ hqneT
  have hfr4 : getNode s4 q
      = getNode (setNode (setNode s1m (goJoin fs.tempDir false [Nat.repr ts ++ ".bin"])
        (.file [])) (goJoin fs.tempDir false [Nat.repr ts ++ ".bin"]) (.file B)) q := by
    refine osMkdirAll_frame hmk2 (Or.inl ?_)
    rw [hdD]
    intro hu
    exact hqRoot (under_antisymm hu hq)
  have hfr5 : getNode s5 q = getNode s4 q :=
    hrn3 q (separated_pair hTD hDT hunderT hq).1 hqD
  have hfr6 : getNode s6 q = getNode s5 q := by
    refine osMkdirAll_frame hmk3 (Or.inl ?_)
    intro hu
    have h1 : under (parsePath fs.dataDir) (fs.absLink name) :=
      under_trans hq (under_trans hu (under_dirOf _))
    rcases under_comparable h1 hunderL with hc | hc
    · exact hDL hc
    · exact hLD hc
  have hfr7 : getNode s7 q = getNode s6 q := by
    rw [hs7]
    exact getNode_setNode_ne _ _ _ (separated_pair hDL hLD hq hunderL).2
  rw [hfr7, hfr6, hfr5, hfr4, hfr3, hfr2, hfr1]

/-- **C3** (confirmed).  Read-after-write: on a store with separated
absolute roots, if `FS.Create(name)` succeeds, all of `B` is written
through the handle, and `Close` succeeds, then `FS.Open(name)`
succeeds and reading the stream to its end yields exactly `B` (the
link's symlink is followed to the content-addressed data file holding
`B`).  The fresh temp path is assumed childless, as a real store
is. -/
theorem FS.Open_after_create_close (fs : FS) (name : String) (ts : Nat) (B : List Nat)
    (s : FState) {w : fileWriter} {s2 s7 : FState}
    (hsep : RootsSeparated fs)
    (hnct : hasChild s (goJoin fs.tempDir false [Nat.repr ts ++ ".bin"]) = false)
    (hcr : FS.Create fs name ts s = .ok (w, s2))
    (hcl : fwClose (fwWrite w B s2).1 (fwWrite w B s2).2 = .ok s7) :
    FS.Open fs name s7 = .ok B := by
  obtain ⟨hD7, hL7, _, _⟩ := createClose_effect fs name ts B s hsep hnct hcr hcl
  rw [FS.Open, osOpenRead]
  have h40 : resolvePath s7 40 (fs.absLink name)
      = resolvePath s7 39 (goJoin fs.dataDir false [sha512hex B ++ ".bin"]) :=
    resolvePath_sym 39 hL7
  have h39 : resolvePath s7 39 (goJoin fs.dataDir false [sha512hex B ++ ".bin"])
      = .ok (goJoin fs.dataDir false [sha512hex B ++ ".bin"]) := by
    refine resolvePath_nonsym 38 ?_
    intro t ht
    rw [hD7] at ht
    exact FNode.noConfusion (Option.some.inj ht)
  rw [h40, h39, exceptBind_ok_left]
  simp only [hD7]

/-- **C2** (confirmed).  Content-addressing: on a store with separated
absolute roots whose data root holds no regular file yet, two
`Create`/write-`B`/`Close` cycles under any two link names both commit
to the single data file `Join(dataDir, <lowercase-hex-sha512(B)>.bin)`
holding exactly `B` — and it is the only regular file at or under the
data root afterwards (the second rename overwrites the first data file
with identical content). -/
theorem FS.create_close_content_addressed (fs : FS) (n1 n2 : String) (ts1 ts2 : Nat)
    (B : List Nat) (s : FState)
    {w1 : fileWriter} {s21 s71 : FState} {w2 : fileWriter} {s22 s72 : FState}
    (hsep : RootsSeparated fs)
    (hclean : ∀ e ∈ s, under (parsePath fs.dataDir) e.1 → isFileNode e.2 = false)
    (hnct1 : hasChild s (goJoin fs.tempDir false [Nat.repr ts1 ++ ".bin"]) = false)
    (hcr1 : FS.Create fs n1 ts1 s = .ok (w1, s21))
    (hcl1 : fwClose (fwWrite w1 B s21).1 (fwWrite w1 B s21).2 = .ok s71)
    (hnct2 : hasChild s71 (goJoin fs.tempDir false [Nat.repr ts2 ++ ".bin"]) = false)
    (hcr2 : FS.Create fs n2 ts2 s71 = .ok (w2, s22))
    (hcl2 : fwClose (fwWrite w2 B s22).1 (fwWrite w2 B s22).2 = .ok s72) :
    getNode s72 (goJoin fs.dataDir false [sha512hex B ++ ".bin"]) = some (.file B)
    ∧ ∀ q c', under (parsePath fs.dataDir) q → getNode s72 q = some (.file c') →
        q = goJoin fs.dataDir false [sha512hex B ++ ".bin"] ∧ c' = B := by
  obtain ⟨hD1, _, hroot1, hfr1⟩ := createClose_effect fs n1 ts1 B s hsep hnct1 hcr1 hcl1
  obtain ⟨hD2, _, hroot2, hfr2⟩ := createClose_effect fs n2 ts2 B s71 hsep hnct2 hcr2 hcl2
  refine ⟨hD2, ?_⟩
  intro q c' hq hfile
  by_cases hqD : q = goJoin fs.dataDir false [sha512hex B ++ ".bin"]
  · subst hqD
    rw [hD2] at hfile
    exact ⟨rfl, (FNode.file.inj (Option.some.inj hfile)).symm⟩
  · by_cases hqR : q = parsePath fs.dataDir
    · rw [hqR, hroot2] at hfile
      exact FNode.noConfusion (Option.some.inj hfile)
    · rw [hfr2 q hq hqD hqR, hfr1 q hq hqD hqR] at hfile
      obtain ⟨e, he, he1, he2⟩ := getNode_some_mem hfile
      have hcl0 := hclean e he (by rw [he1]; exact hq)
      rw [he2] at hcl0
      exact Bool.noConfusion hcl0

theorem getNode_moved_none {l : FState} {old new q : GoPath} (h : ¬ under new q) :
    getNode (l.map (fun e =>
      ((⟨new.rooted, new.comps ++ e.1.comps.drop old.comps.length⟩ : GoPath), e.2))) q
      = none := by
  induction l with
  | nil => rfl
  | cons a l ih =>
    rw [List.map_cons, getNode_cons, if_neg, ih]
    intro e
    exact h (e ▸ ⟨rfl, List.prefix_append _ _⟩)

/-- A successful rename changes nothing outside the source subtree,
the destination path and the destination subtree. -/
theorem osRename_ok_frame {old new q : GoPath} {s s' : FState} (hne : old ≠ new)
    (h : osRename old new s = .ok s')
    (h1 : ¬ under old q) (h2 : q ≠ new) (h3 : ¬ under new q) :
    getNode s' q = getNode s q := by
  obtain ⟨_, _, _, _, hs'⟩ := osRename_ok_elim hne h
  rw [hs', getNode_append_none _ (getNode_moved_none h3)]
  exact getNode_filter_keep s _ q (fun n => by simp [h1, h2])

/-- **C4** amended.  When an entry already exists at the target link
path (on a store with separated absolute roots), a `Create`/write/`Close`
cycle does **not** replace it: `fileWriter.Close` cannot succeed — the
final `os.Symlink` fails with `EEXIST` (`symlink(2)` never
overwrites), and the pre-existing entry is what it finds, since none
of the earlier steps (temp-file creation, data rename, directory
creation) touches the link path. -/
theorem fwClose_existing_link_fails (fs : FS) (name : String) (ts : Nat) (B : List Nat)
    (s : FState) {w : fileWriter} {s2 : FState} (n₀ : FNode)
    (hsep : RootsSeparated fs)
    (hex : getNode s (fs.absLink name) = some n₀)
    (hcr : FS.Create fs name ts s = .ok (w, s2)) :
    ∀ s7, fwClose (fwWrite w B s2).1 (fwWrite w B s2).2 ≠ .ok s7 := by
  intro s7 hcl
  obtain ⟨htR, hdR, hlR, hTD, hDT, hTL, hLT, hDL, hLD⟩ := hsep
  have hnT : normalComp (Nat.repr ts ++ ".bin") := normalComp_bin _
  have hnD : normalComp (sha512hex B ++ ".bin") := normalComp_bin _
  have hunderT : under (parsePath fs.tempDir)
      (goJoin fs.tempDir false [Nat.repr ts ++ ".bin"]) :=
    under_parse_goJoin_singleton htR hnT
  have hunderD : under (parsePath fs.dataDir)
      (goJoin fs.dataDir false [sha512hex B ++ ".bin"]) :=
    under_parse_goJoin_singleton hdR hnD
  have hunderL : under (parsePath fs.linkDir) (fs.absLink name) :=
    FS.absLink_confined fs name hlR
  simp only [FS.Create, createFile] at hcr
  obtain ⟨s1m, hmk1, hcr2⟩ := exceptBind_ok hcr
  obtain ⟨s2m, hct, hfin⟩ := exceptBind_ok hcr2
  have hw : w = ⟨goJoin fs.tempDir false [Nat.repr ts ++ ".bin"], fs.dataDir,
      fs.absLink name, fs.dirPerm, []⟩ :=
    (congrArg Prod.fst (Except.ok.inj hfin)).symm
  have hs2 : s2 = s2m := (congrArg Prod.snd (Except.ok.inj hfin)).symm
  obtain ⟨hdirT, hs2m⟩ := osCreate_ok_elim hct
  rw [hw, hs2, hs2m] at hcl
  have hfw : fwWrite ⟨goJoin fs.tempDir false [Nat.repr ts ++ ".bin"], fs.dataDir,
        fs.absLink name, fs.dirPerm, []⟩ B
        (setNode s1m (goJoin fs.tempDir false [Nat.repr ts ++ ".bin"]) (.file []))
      = (⟨goJoin fs.tempDir false [Nat.repr ts ++ ".bin"], fs.dataDir,
          fs.absLink name, fs.dirPerm, B⟩,
        setNode (setNode s1m (goJoin fs.tempDir false [Nat.repr ts ++ ".bin"]) (.file []))
          (goJoin fs.tempDir false [Nat.repr ts ++ ".bin"]) (.file B)) := by
    simp [fwWrite, getNode_setNode_self]
  simp only [hfw] at hcl
  simp only [fwClose] at hcl
  obtain ⟨s4, hmk2, hcl2⟩ := exceptBind_ok hcl
  obtain ⟨s5, hrn, hcl3⟩ := exceptBind_ok hcl2
  obtain ⟨s6, hmk3, hsl⟩ := exceptBind_ok hcl3
  obtain ⟨hL6, _, _⟩ := osSymlink_ok_elim hsl
  have hLneT : fs.absLink name ≠ goJoin fs.tempDir false [Nat.repr ts ++ ".bin"] :=
    (separated_pair hLT hTL hunderL hunderT).2
  have hL1 : getNode s1m (fs.absLink name) = some n₀ := osMkdirAll_pres_some hmk1 hex
  have hL2 : getNode (setNode s1m (goJoin fs.tempDir false [Nat.repr ts ++ ".bin"])
      (.file [])) (fs.absLink name) = some n₀ := by
    rw [getNode_setNode_ne _ _ _ hLneT]
    exact hL1
  have hL3 : getNode (setNode (setNode s1m (goJoin fs.tempDir false [Nat.repr ts ++ ".bin"])
      (.file [])) (goJoin fs.tempDir false [Nat.repr ts ++ ".bin"]) (.file B))
      (fs.absLink name) = some n₀ := by
    rw [getNode_setNode_ne _ _ _ hLneT]
    exact hL2
  have hL4 : getNode s4 (fs.absLink name) = some n₀ := osMkdirAll_pres_some hmk2 hL3
  have hL5 : getNode s5 (fs.absLink name) = some n₀ := by
    rw [osRename_ok_frame (separated_pair hTD hDT hunderT hunderD).2 hrn
      (separated_pair hTL hLT hunderT hunderL).1
      (separated_pair hLD hDL hunderL hunderD).2
      (separated_pair hDL hLD hunderD hunderL).1]
    exact hL4
  have hL6f : getNode s6 (fs.absLink name) = some n₀ := osMkdirAll_pres_some hmk3 hL5
  rw [hL6f] at hL6
  exact Option.noConfusion hL6

/-- Witness for **C3**: writing `"hi"` (`[104, 105]`) under
`sub/f.txt` into an empty store and reading it back. -/
theorem FS.Open_after_create_close_witness :
    FS.Open ⟨"/s/temp", "/s/data", "/s/link", 448⟩ "sub/f.txt"
        [(⟨true, ["s", "link", "sub", "f.txt"]⟩,
            .symlink ⟨true, ["s", "data", sha512hex [104, 105] ++ ".bin"]⟩),
          (⟨true, ["s", "link", "sub"]⟩, .dir), (⟨true, ["s", "link"]⟩, .dir),
          (⟨true, ["s", "data", sha512hex [104, 105] ++ ".bin"]⟩, .file [104, 105]),
          (⟨true, ["s", "data"]⟩, .dir), (⟨true, ["s", "temp"]⟩, .dir),
          (⟨true, ["s"]⟩, .dir)]
      = .ok [104, 105] :=
  FS.Open_after_create_close ⟨"/s/temp", "/s/data", "/s/link", 448⟩ "sub/f.txt" 7
    [104, 105] [] (by decide) rfl rfl rfl

/-- Witness for **C2**: two cycles with content `[104, 105]` under
`sub/f.txt` and `c/f.txt` leave one data file named by the digest. -/
theorem FS.create_close_content_addressed_witness :
    getNode [(⟨true, ["s", "link", "c", "f.txt"]⟩,
          .symlink ⟨true, ["s", "data", sha512hex [104, 105] ++ ".bin"]⟩),
        (⟨true, ["s", "link", "c"]⟩, .dir),
        (⟨true, ["s", "data", sha512hex [104, 105] ++ ".bin"]⟩, .file [104, 105]),
        (⟨true, ["s", "link", "sub", "f.txt"]⟩,
          .symlink ⟨true, ["s", "data", sha512hex [104, 105] ++ ".bin"]⟩),
        (⟨true, ["s", "link", "sub"]⟩, .dir), (⟨true, ["s", "link"]⟩, .dir),
        (⟨true, ["s", "data"]⟩, .dir), (⟨true, ["s", "temp"]⟩, .dir),
        (⟨true, ["s"]⟩, .dir)]
      (goJoin "/s/data" false [sha512hex [104, 105] ++ ".bin"])
      = some (.file [104, 105]) :=
  (FS.create_close_content_addressed ⟨"/s/temp", "/s/data", "/s/link", 448⟩
    "sub/f.txt" "c/f.txt" 7 9 [104, 105] []
    (by decide) (by decide) rfl rfl rfl (by decide) rfl rfl).1

/-- **C4** counterexample.  A symlink already exists at
`sub/f.txt`; `FS.Create` succeeds, the content is written, but
`Close` returns the `EEXIST` error from `os.Symlink` instead of
replacing the link. -/
theorem fwClose_existing_link_cex :
    FS.Create ⟨"/s/temp", "/s/data", "/s/link", 448⟩ "sub/f.txt" 7
        [(⟨true, ["s"]⟩, .dir), (⟨true, ["s", "link"]⟩, .dir),
          (⟨true, ["s", "link", "sub"]⟩, .dir),
          (⟨true, ["s", "link", "sub", "f.txt"]⟩,
            .symlink ⟨true, ["s", "data", "old.bin"]⟩),
          (⟨true, ["s", "data"]⟩, .dir), (⟨true, ["s", "data", "old.bin"]⟩, .file [1])]
      = .ok (⟨⟨true, ["s", "temp", "7.bin"]⟩, "/s/data",
          ⟨true, ["s", "link", "sub", "f.txt"]⟩, 448, []⟩,
        [(⟨true, ["s", "temp", "7.bin"]⟩, .file []), (⟨true, ["s", "temp"]⟩, .dir),
          (⟨true, ["s"]⟩, .dir), (⟨true, ["s", "link"]⟩, .dir),
          (⟨true, ["s", "link", "sub"]⟩, .dir),
          (⟨true, ["s", "link", "sub", "f.txt"]⟩,
            .symlink ⟨true, ["s", "data", "old.bin"]⟩),
          (⟨true, ["s", "data"]⟩, .dir), (⟨true, ["s", "data", "old.bin"]⟩, .file [1])])
    ∧ fwClose
        (fwWrite ⟨⟨true, ["s", "temp", "7.bin"]⟩, "/s/data",
          ⟨true, ["s", "link", "sub", "f.txt"]⟩, 448, []⟩ [104, 105]
          [(⟨true, ["s", "temp", "7.bin"]⟩, .file []), (⟨true, ["s", "temp"]⟩, .dir),
            (⟨true, ["s"]⟩, .dir), (⟨true, ["s", "link"]⟩, .dir),
            (⟨true, ["s", "link", "sub"]⟩, .dir),
            (⟨true, ["s", "link", "sub", "f.txt"]⟩,
              .symlink ⟨true, ["s", "data", "old.bin"]⟩),
            (⟨true, ["s", "data"]⟩, .dir),
            (⟨true, ["s", "data", "old.bin"]⟩, .file [1])]).1
        (fwWrite ⟨⟨true, ["s", "temp", "7.bin"]⟩, "/s/data",
          ⟨true, ["s", "link", "sub", "f.txt"]⟩, 448, []⟩ [104, 105]
          [(⟨true, ["s", "temp", "7.bin"]⟩, .file []), (⟨true, ["s", "temp"]⟩, .dir),
            (⟨true, ["s"]⟩, .dir), (⟨true, ["s", "link"]⟩, .dir),
            (⟨true, ["s", "link", "sub"]⟩, .dir),
            (⟨true, ["s", "link", "sub", "f.txt"]⟩,
              .symlink ⟨true, ["s", "data", "old.bin"]⟩),
            (⟨true, ["s", "data"]⟩, .dir),
            (⟨true, ["s", "data", "old.bin"]⟩, .file [1])]).2
      = .error (.fsError "symlink: file exists") :=
  ⟨rfl, rfl⟩

/-- Witness for the amended **C4** at the same concrete store: `Close`
cannot return success. -/
theorem fwClose_existing_link_fails_witness :
    fwClose
        (fwWrite ⟨⟨true, ["s", "temp", "7.bin"]⟩, "/s/data",
          ⟨true, ["s", "link", "sub", "f.txt"]⟩, 448, []⟩ [104, 105]
          [(⟨true, ["s", "temp", "7.bin"]⟩, .file []), (⟨true, ["s", "temp"]⟩, .dir),
            (⟨true, ["s"]⟩, .dir), (⟨true, ["s", "link"]⟩, .dir),
            (⟨true, ["s", "link", "sub"]⟩, .dir),
            (⟨true, ["s", "link", "sub", "f.txt"]⟩,
              .symlink ⟨true, ["s", "data", "old.bin"]⟩),
            (⟨true, ["s", "data"]⟩, .dir),
            (⟨true, ["s", "data", "old.bin"]⟩, .file [1])]).1
        (fwWrite ⟨⟨true, ["s", "temp", "7.bin"]⟩, "/s/data",
          ⟨true, ["s", "link", "sub", "f.txt"]⟩, 448, []⟩ [104, 105]
          [(⟨true, ["s", "temp", "7.bin"]⟩, .file []), (⟨true, ["s", "temp"]⟩, .dir),
            (⟨true, ["s"]⟩, .dir), (⟨true, ["s", "link"]⟩, .dir),
            (⟨true, ["s", "link", "sub"]⟩, .dir),
            (⟨true, ["s", "link", "sub", "f.txt"]⟩,
              .symlink ⟨true, ["s", "data", "old.bin"]⟩),
            (⟨true, ["s", "data"]⟩, .dir),
            (⟨true, ["s", "data", "old.bin"]⟩, .file [1])]).2
      ≠ .ok [] :=
  fwClose_existing_link_fails ⟨"/s/temp", "/s/data", "/s/link", 448⟩ "sub/f.txt" 7
    [104, 105]
    [(⟨true, ["s"]⟩, .dir), (⟨true, ["s", "link"]⟩, .dir),
      (⟨true, ["s", "link", "sub"]⟩, .dir),
      (⟨true, ["s", "link", "sub", "f.txt"]⟩,
        .symlink ⟨true, ["s", "data", "old.bin"]⟩),
      (⟨true, ["s", "data"]⟩, .dir), (⟨true, ["s", "data", "old.bin"]⟩, .file [1])]
    (.symlink ⟨true, ["s", "data", "old.bin"]⟩) (by decide) rfl rfl []

/-- Validation of the SHA-512 embedding against the repository's own
recorded vector: `fs_test.go` pins the digest of `"DUMMY"`
(`echo -n DUMMY | sha512sum`), and the model computes the same
lowercase hex string. -/
theorem sha512hex_DUMMY :
    sha512hex (strBytes "DUMMY")
      = "0a8649de6b948fac1722c82ee07f4e3e8386a071750daf23c56fbba31acc922323b362fe10327e7e3322bc9354df59e02ded56f7f6f0ebfd6e99702154299d51" := by
  decide
